import Mathlib

/-!
# TileDB: validity vectors and the fragment merge engine

Part I embeds `tiledb/sm/query/validity_vector.h` (class `ValidityVector`).
Part II models the fragment writer, the merge reader and the consolidator that
`test/src/unit-capi-consolidation.cc` drives through the C API, together with
the buffers that test writes and expects.
-/

namespace tiledb
namespace sm

/-! ## Part I: `ValidityVector` (validity_vector.h) -/

/-- Modelled from the spec: the `Status` class is declared outside
`validity_vector.h` (status-code style error signalling, section 9).  The header
only ever builds `Status::Ok()`; the error case stands for every non-Ok status. -/
inductive Status where
  | Ok
  | Error (msg : String)
  deriving DecidableEq, Repr

/-- A `uint8_t*` value: the null pointer, a pointer to a block of bytes that may
be read and written, or an invalid (indeterminate, dangling) pointer. -/
inductive Ptr where
  | null
  | block (bytes : List Nat)
  | wild
  deriving DecidableEq, Repr

/-- How a call ends: it returns, it runs into `LOG_FATAL`, or it runs into
behaviour the language leaves undefined (an access outside a block or through an
invalid pointer). -/
inductive Outcome (α : Type) where
  | returned (a : α)
  | fatal (msg : String)
  | undefined
  deriving DecidableEq, Repr

/-- Modelled from the spec: `LOG_FATAL` is declared outside `validity_vector.h`;
the spec calls the path it opens process-terminating, so nothing after it runs
and no value is returned. -/
def LOG_FATAL {α : Type} (msg : String) : Outcome α :=
  Outcome.fatal msg

/-- The answer of the allocator to one request: `none` when the request fails
(the call returns the null pointer), `some f` when it succeeds, `f i` being the
indeterminate byte found at index `i` of the fresh block. -/
abbrev Alloc := Option (Nat → Nat)

/-- The call `malloc(n)`. -/
def malloc (env : Alloc) (n : Nat) : Ptr :=
  match env with
  | none => Ptr.null
  | some f => Ptr.block ((List.range n).map f)

/-- The call `realloc(p, n)`; `none` is undefined behaviour (an invalid `p`).
A failing request returns the null pointer; a successful one keeps the old
bytes up to the smaller of the two sizes. -/
def realloc (env : Alloc) (p : Ptr) (n : Nat) : Option Ptr :=
  match env with
  | none => some Ptr.null
  | some f =>
    match p with
    | Ptr.null => some (Ptr.block ((List.range n).map f))
    | Ptr.block old => some (Ptr.block ((List.range n).map fun i => old.getD i (f i)))
    | Ptr.wild => none

/-- The call `memcpy(dest, src, n)`: the destination afterwards, `none` when the
copy reads or writes outside a block.  A copy of zero bytes touches nothing. -/
def memcpy (dest src : Ptr) (n : Nat) : Option Ptr :=
  if n = 0 then some dest
  else
    match dest, src with
    | Ptr.block d, Ptr.block s =>
      if n ≤ d.length ∧ n ≤ s.length then some (Ptr.block (s.take n ++ d.drop n)) else none
    | _, _ => none

/-- The private attributes of `ValidityVector`. -/
structure ValidityVector where
  buffer_ : Ptr
  buffer_size_ : Nat
  deriving DecidableEq, Repr

namespace ValidityVector

/-- Default constructor `ValidityVector()`. -/
def ctor_default : ValidityVector :=
  { buffer_ := Ptr.null, buffer_size_ := 0 }

/-- Value constructor `ValidityVector(uint64_t size)`.  The constructor has no
initialiser for `buffer_`; `garbage` is the indeterminate value the member holds
when the body does not assign it. -/
def ctor_size (env : Alloc) (garbage : Ptr) (size : Nat) : Outcome ValidityVector :=
  if size > 0 then
    match malloc env size with
    | Ptr.null => LOG_FATAL "Unable to construct ValidityVector; malloc() failed"
    | p => Outcome.returned { buffer_ := p, buffer_size_ := size }
  else
    Outcome.returned { buffer_ := garbage, buffer_size_ := size }

/-- The method `set_bytemap(uint8_t* const validity_vector)`. -/
def set_bytemap (v : ValidityVector) (env : Alloc) (validity_vector : Ptr) :
    Outcome (Status × ValidityVector) :=
  if v.buffer_size_ = 0 then Outcome.returned (Status.Ok, v)
  else
    let r : Option Ptr :=
      if v.buffer_ = Ptr.null then some (malloc env v.buffer_size_)
      else realloc env v.buffer_ v.buffer_size_
    match r with
    | none => Outcome.undefined
    | some Ptr.null => LOG_FATAL "Unable to set ValidityVector; malloc()/realloc() failed"
    | some b =>
      match memcpy b validity_vector v.buffer_size_ with
      | none => Outcome.undefined
      | some b' => Outcome.returned (Status.Ok, { v with buffer_ := b' })

/-- The method `get_bytemap(uint8_t* const validity_vector)`; the result holds
the status, the vector and the destination after the copy. -/
def get_bytemap (v : ValidityVector) (validity_vector : Ptr) :
    Outcome (Status × ValidityVector × Ptr) :=
  if validity_vector = Ptr.null then
    LOG_FATAL "Unable to get ValidityVector; validity_vector is empty"
  else
    match memcpy validity_vector v.buffer_ v.buffer_size_ with
    | none => Outcome.undefined
    | some d => Outcome.returned (Status.Ok, v, d)

/-- The method `size()`. -/
def size (v : ValidityVector) : Nat := v.buffer_size_

/-- The method `buffer()`. -/
def buffer (v : ValidityVector) : Ptr := v.buffer_

/-- A run of `set_bytemap` calls, each with the allocator's answer and the
argument of the call; the run stops at the first call that does not return. -/
def set_bytemaps (v : ValidityVector) : List (Alloc × Ptr) → Outcome ValidityVector
  | [] => Outcome.returned v
  | (env, arg) :: rest =>
    match v.set_bytemap env arg with
    | Outcome.returned (_, v') => set_bytemaps v' rest
    | Outcome.fatal msg => Outcome.fatal msg
    | Outcome.undefined => Outcome.undefined

/-- One call of the interface on a vector: `set_bytemap` with the allocator's
answer and its argument, or `get_bytemap` with its destination. -/
inductive Call where
  | set (env : Alloc) (validity_vector : Ptr)
  | get (validity_vector : Ptr)

/-- The vector after one call, when the call returns. -/
def apply_call (v : ValidityVector) : Call → Outcome ValidityVector
  | Call.set env arg =>
    match v.set_bytemap env arg with
    | Outcome.returned (_, v') => Outcome.returned v'
    | Outcome.fatal msg => Outcome.fatal msg
    | Outcome.undefined => Outcome.undefined
  | Call.get dest =>
    match v.get_bytemap dest with
    | Outcome.returned (_, v', _) => Outcome.returned v'
    | Outcome.fatal msg => Outcome.fatal msg
    | Outcome.undefined => Outcome.undefined

/-- The vector after a sequence of `set_bytemap` and `get_bytemap` calls; the
sequence stops at the first call that does not return. -/
def apply_calls (v : ValidityVector) : List Call → Outcome ValidityVector
  | [] => Outcome.returned v
  | c :: rest =>
    match v.apply_call c with
    | Outcome.returned v' => apply_calls v' rest
    | Outcome.fatal msg => Outcome.fatal msg
    | Outcome.undefined => Outcome.undefined

/-- Whether the buffer is null or a block of exactly `size()` bytes, one byte
per cell. -/
def buffer_fits (v : ValidityVector) : Bool :=
  match v.buffer_ with
  | Ptr.null => true
  | Ptr.block b => b.length == v.buffer_size_
  | Ptr.wild => false

/-- Whether `n` bytes may be copied from or to a pointer: always when `n = 0`,
otherwise the pointer must lead to a block of at least `n` bytes. -/
def holds (p : Ptr) (n : Nat) : Bool :=
  n == 0 ||
    match p with
    | Ptr.block b => decide (n ≤ b.length)
    | _ => false

end ValidityVector

/-! ## Part II: fragments, the merge reader and the consolidator

The code of the writer, the reader and the consolidator is not part of the two
source files; `unit-capi-consolidation.cc` reaches it through the C API.  The
definitions below follow the specification (sections 3 and 4); the buffers of the
test are transcribed at the end of the part.
-/

/-- Modelled from the spec: the layout tag of a query (section 4.1: row-major,
column-major, global-order, unordered); the C API names are `TILEDB_ROW_MAJOR`,
`TILEDB_COL_MAJOR`, `TILEDB_GLOBAL_ORDER`, `TILEDB_UNORDERED`. -/
inductive Layout where
  | ROW_MAJOR
  | COL_MAJOR
  | GLOBAL_ORDER
  | UNORDERED
  deriving DecidableEq, Repr

/-- Modelled from the spec: a dimension (section 3): domain bounds `[lo, hi]`
and tile extent. -/
structure Dimension where
  lo : Nat
  hi : Nat
  tile_extent : Nat
  deriving DecidableEq, Repr

/-- Modelled from the spec: the part of the array schema the merge engine
consumes: dense or sparse, the domain, cell order and tile order. -/
structure ArraySchema where
  dense : Bool
  domain : List Dimension
  cell_order : Layout
  tile_order : Layout
  deriving DecidableEq, Repr

/-- Modelled from the spec: a cell (section 3): its coordinate tuple (the
logical position, for a dense array) and its attribute values. -/
structure Cell (α : Type) where
  coords : List Nat
  val : α
  deriving DecidableEq, Repr

/-- Modelled from the spec: a sealed fragment: the span of logical time it
stands for (one point for a written fragment, `[min_ts, max_ts]` for a
consolidated one) and its cells in stored order. -/
structure Fragment (α : Type) where
  timestamp : Nat × Nat
  cells : List (Cell α)
  deriving DecidableEq, Repr

/-- Modelled from the spec: the failure modes of the fragment writer
(section 4.1).  Tiles and their capacity are below the level of this model, so
`CapacityExceeded` is never raised here. -/
inductive WriteError where
  | SchemaMismatch
  | LayoutError
  | CapacityExceeded
  deriving DecidableEq, Repr

/-- Modelled from the spec: a write query: layout tag, optional subarray (one
`(lo, hi)` pair per dimension), optional coordinate buffer (flat, as
`TILEDB_COORDS` is passed) and the attribute values, one per cell. -/
structure WriteQuery (α : Type) where
  layout : Layout
  subarray : Option (List (Nat × Nat))
  coords : Option (List Nat)
  values : List α

/-- Modelled from the spec: the lexicographic comparison of two sort keys. -/
def lex_le : List Nat → List Nat → Bool
  | [], _ => true
  | _ :: _, [] => false
  | a :: as, b :: bs => if a < b then true else if a = b then lex_le as bs else false

/-- Modelled from the spec: a tuple read in row-major order (first dimension
most significant) or in column-major order (last dimension most significant). -/
def orient (order : Layout) (c : List Nat) : List Nat :=
  match order with
  | Layout.COL_MAJOR => c.reverse
  | _ => c

/-- Modelled from the spec: the coordinates of the tile that holds a cell (the
global tile id of section 4.1), from the domain bounds and the tile extents. -/
def tile_coords (s : ArraySchema) (c : List Nat) : List Nat :=
  List.zipWith (fun (d : Dimension) x => (x - d.lo) / d.tile_extent) s.domain c

/-- Modelled from the spec: the sort key of the global order (section 4.1):
the tile in tile order, then the cell in cell order. -/
def global_key (s : ArraySchema) (c : List Nat) : List Nat :=
  orient s.tile_order (tile_coords s c) ++ orient s.cell_order c

/-- Modelled from the spec: the sort key of a requested layout (section 4.3,
output ordering); unordered stands for the internal order of the engine, which
is the global order. -/
def layout_key (s : ArraySchema) (l : Layout) (c : List Nat) : List Nat :=
  match l with
  | Layout.ROW_MAJOR => c
  | Layout.COL_MAJOR => c.reverse
  | _ => global_key s c

/-- Modelled from the spec: the order of two coordinate tuples in a layout. -/
def layout_le (s : ArraySchema) (l : Layout) (c d : List Nat) : Bool :=
  lex_le (layout_key s l c) (layout_key s l d)

/-- Modelled from the spec: the order of two cells in a layout. -/
def cell_le {α : Type} (s : ArraySchema) (l : Layout) (c d : Cell α) : Prop :=
  layout_le s l c.coords d.coords = true

instance cell_le_decidable {α : Type} (s : ArraySchema) (l : Layout) :
    DecidableRel (cell_le s l : Cell α → Cell α → Prop) :=
  fun c d => inferInstanceAs (Decidable (layout_le s l c.coords d.coords = true))

/-- Modelled from the spec: the order of two positions in a layout. -/
def coords_le (s : ArraySchema) (l : Layout) (c d : List Nat) : Prop :=
  layout_le s l c d = true

instance coords_le_decidable (s : ArraySchema) (l : Layout) :
    DecidableRel (coords_le s l) :=
  fun c d => inferInstanceAs (Decidable (layout_le s l c d = true))

/-- Modelled from the spec: whether a tuple lies in a box (a subarray, one
`(lo, hi)` pair per dimension). -/
def in_box : List (Nat × Nat) → List Nat → Bool
  | [], [] => true
  | r :: b, x :: c => decide (r.1 ≤ x) && decide (x ≤ r.2) && in_box b c
  | _, _ => false

/-- Modelled from the spec: the logical cells of a box, first dimension
slowest. -/
def box_cells : List (Nat × Nat) → List (List Nat)
  | [] => [[]]
  | r :: b => (List.range' r.1 (r.2 + 1 - r.1)).flatMap fun x => (box_cells b).map fun c => x :: c

/-- Modelled from the spec: the positions of a box in the order of a layout. -/
def positions (s : ArraySchema) (l : Layout) (box : List (Nat × Nat)) : List (List Nat) :=
  (box_cells box).insertionSort (coords_le s l)

/-- Modelled from the spec: the whole domain as a box. -/
def domain_box (s : ArraySchema) : List (Nat × Nat) :=
  s.domain.map fun d => (d.lo, d.hi)

/-- Modelled from the spec: a flat coordinate buffer cut into `k` tuples of `n`
numbers. -/
def chunks (n : Nat) : Nat → List Nat → List (List Nat)
  | 0, _ => []
  | k + 1, l => l.take n :: chunks n k (l.drop n)

/-- Modelled from the spec: the cells a write query describes, in the order
of its buffers (section 4.1).  A coordinate buffer or a value buffer whose shape
does not fit the schema is a `SchemaMismatch`; a sparse array without
coordinates, or an unordered query without coordinates on a dense array, is a
`LayoutError`. -/
def query_cells {α : Type} (s : ArraySchema) (q : WriteQuery α) :
    Except WriteError (List (Cell α)) :=
  match q.coords with
  | some flat =>
    if flat.length = s.domain.length * q.values.length then
      Except.ok (List.zipWith Cell.mk (chunks s.domain.length q.values.length flat) q.values)
    else Except.error WriteError.SchemaMismatch
  | none =>
    if s.dense = false then Except.error WriteError.LayoutError
    else if q.layout = Layout.UNORDERED then Except.error WriteError.LayoutError
    else
      let box := q.subarray.getD (domain_box s)
      if box.length = s.domain.length ∧ (box_cells box).length = q.values.length then
        Except.ok (List.zipWith Cell.mk (positions s q.layout box) q.values)
      else Except.error WriteError.SchemaMismatch

/-- Modelled from the spec: the writer permutes the cells into the global
order before tiling, unless the query is tagged global-order (its cells are
pre-sorted). -/
def seal_cells {α : Type} (s : ArraySchema) (l : Layout) (cells : List (Cell α)) : List (Cell α) :=
  match l with
  | Layout.GLOBAL_ORDER => cells
  | _ => cells.insertionSort (cell_le s Layout.GLOBAL_ORDER)

/-- Modelled from the spec: the timestamp of the next fragment, the current
maximum in the array plus one. -/
def next_timestamp {α : Type} (frags : List (Fragment α)) : Nat :=
  (frags.map fun f => f.timestamp.2).foldl max 0 + 1

/-- Modelled from the spec: the fragment writer (section 4.1): one write
query adds one sealed fragment at the end of the fragment list. -/
def write {α : Type} (s : ArraySchema) (frags : List (Fragment α)) (q : WriteQuery α) :
    Except WriteError (List (Fragment α)) :=
  match query_cells s q with
  | Except.ok cells =>
    Except.ok (frags ++
      [{ timestamp := (next_timestamp frags, next_timestamp frags), cells := seal_cells s q.layout cells }])
  | Except.error e => Except.error e

/-- Modelled from the spec: a sequence of write queries, each sealed after the
one before; the first failure ends the sequence. -/
def apply_writes {α : Type} (s : ArraySchema) :
    List (WriteQuery α) → List (Fragment α) → Except WriteError (List (Fragment α))
  | [], frags => Except.ok frags
  | q :: qs, frags =>
    match write s frags q with
    | Except.ok frags' => apply_writes s qs frags'
    | Except.error e => Except.error e

/-- Modelled from the spec: whether a cell lies in the queried region. -/
def in_subarray (sub : Option (List (Nat × Nat))) (c : List Nat) : Bool :=
  match sub with
  | none => true
  | some box => in_box box c

/-- Modelled from the spec: the cells of all fragments restricted to the
subarray, in increasing timestamp order (section 4.3, contract).  The fragment
list is kept in timestamp order by the writer; the pruning of fragments that do
not overlap the subarray, which cannot change a result, is left out. -/
def merge_stream {α : Type} (sub : Option (List (Nat × Nat))) (frags : List (Fragment α)) :
    List (Cell α) :=
  frags.flatMap fun f => f.cells.filter fun c => in_subarray sub c.coords

/-- Modelled from the spec: one insertion into the coordinate-keyed
accumulation structure of the sparse merge, kept in global order; a cell at a
coordinate already present overwrites the entry. -/
def acc_insert {α : Type} (s : ArraySchema) (c : Cell α) : List (Cell α) → List (Cell α)
  | [] => [c]
  | d :: ds =>
    if c.coords = d.coords then c :: ds
    else if layout_le s Layout.GLOBAL_ORDER c.coords d.coords then c :: d :: ds
    else d :: acc_insert s c ds

/-- Modelled from the spec: the sparse merge (section 4.3): the cells are
inserted oldest first. -/
def sparse_merge {α : Type} (s : ArraySchema) (cells : List (Cell α)) : List (Cell α) :=
  cells.foldl (fun acc c => acc_insert s c acc) []

/-- Modelled from the spec: the final permutation pass into the requested
layout (section 4.3, output ordering). -/
def reorder {α : Type} (s : ArraySchema) (l : Layout) (cells : List (Cell α)) : List (Cell α) :=
  match l with
  | Layout.GLOBAL_ORDER => cells
  | Layout.UNORDERED => cells
  | _ => cells.insertionSort (cell_le s l)

/-- Modelled from the spec: a sparse read. -/
def sparse_read {α : Type} (s : ArraySchema) (frags : List (Fragment α))
    (sub : Option (List (Nat × Nat))) (l : Layout) : List (Cell α) :=
  reorder s l (sparse_merge s (merge_stream sub frags))

/-- Modelled from the spec: the computed offset of a position in a result
buffer (section 4.3): its index among the positions of the region, the number of
positions when it is outside. -/
def cell_offset (c : List Nat) : List (List Nat) → Nat
  | [] => 0
  | p :: ps => if p = c then 0 else cell_offset c ps + 1

/-- Modelled from the spec: the dense merge (section 4.3): a result buffer
with one slot per position of the region, the fragments processed oldest first,
every value written at the offset of its position; a later write overwrites an
earlier one.  A slot no fragment writes stays empty; the offset of a cell outside
the region falls behind the buffer and nothing is written. -/
def dense_merge {α : Type} (ps : List (List Nat)) (cells : List (Cell α)) : List (Option α) :=
  cells.foldl (fun buf c => buf.set (cell_offset c.coords ps) (some c.val))
    (List.replicate ps.length none)

/-- Modelled from the spec: a dense read of a box: the merge runs in global
order; when another layout is requested a permutation pass follows. -/
def dense_read_box {α : Type} (s : ArraySchema) (frags : List (Fragment α))
    (box : List (Nat × Nat)) (l : Layout) : List (Cell (Option α)) :=
  let ps := positions s Layout.GLOBAL_ORDER box
  let buf := dense_merge ps (merge_stream none frags)
  match l with
  | Layout.GLOBAL_ORDER => List.zipWith Cell.mk ps buf
  | Layout.UNORDERED => List.zipWith Cell.mk ps buf
  | _ => (positions s l box).map fun p => Cell.mk p (buf.getD (cell_offset p ps) none)

/-- Modelled from the spec: a dense read; without a subarray the region is
the whole domain. -/
def dense_read {α : Type} (s : ArraySchema) (frags : List (Fragment α))
    (sub : Option (List (Nat × Nat))) (l : Layout) : List (Cell (Option α)) :=
  dense_read_box s frags (sub.getD (domain_box s)) l

/-- Modelled from the spec: a read query on an array; a slot of a dense
result that no fragment has written is empty. -/
def read {α : Type} (s : ArraySchema) (frags : List (Fragment α))
    (sub : Option (List (Nat × Nat))) (l : Layout) : List (Cell (Option α)) :=
  if s.dense then dense_read s frags sub l
  else (sparse_read s frags sub l).map fun c => Cell.mk c.coords (some c.val)

/-- Modelled from the spec: one step of the bounding range of a set of tuples:
the range widened to hold one more tuple. -/
def hull_step (b : List (Nat × Nat)) (c : List Nat) : List (Nat × Nat) :=
  List.zipWith (fun (r : Nat × Nat) x => (min r.1 x, max r.2 x)) b c

/-- Modelled from the spec: the non-empty domain, the tight bounding
coordinate range of the cells. -/
def non_empty_domain : List (List Nat) → Option (List (Nat × Nat))
  | [] => none
  | c :: cs => some (cs.foldl hull_step (c.map fun x => (x, x)))

/-- Modelled from the spec: the cells of the consolidated fragment of a run
(section 4.4, steps 1 and 2): the merge read of the run over the union of its
non-empty domains (the bounding range of all its cells), no subarray
restriction, in global order; the written slots make the new fragment. -/
def consolidated_cells {α : Type} (s : ArraySchema) (run : List (Fragment α)) : List (Cell α) :=
  if s.dense then
    match non_empty_domain ((merge_stream none run).map fun c => c.coords) with
    | none => []
    | some box =>
      (dense_read_box s run box Layout.GLOBAL_ORDER).filterMap fun c =>
        c.val.map fun v => Cell.mk c.coords v
  else sparse_read s run none Layout.GLOBAL_ORDER

/-- Modelled from the spec: the logical time of a consolidated fragment, the
span from the least to the greatest timestamp of the run. -/
def run_span {α : Type} (run : List (Fragment α)) : Nat × Nat :=
  ((run.map fun f => f.timestamp.1).foldl min ((run.map fun f => f.timestamp.1).headD 0),
   (run.map fun f => f.timestamp.2).foldl max 0)

/-- Modelled from the spec: consolidation (section 4.4) of the run of `n`
fragments that starts at index `i` of the fragment list: the run is replaced by
one fragment; an empty run leaves the list as it is. -/
def consolidate {α : Type} (s : ArraySchema) (i n : Nat) (frags : List (Fragment α)) :
    List (Fragment α) :=
  match (frags.drop i).take n with
  | [] => frags
  | f :: run =>
    frags.take i ++
      [{ timestamp := run_span (f :: run), cells := consolidated_cells s (f :: run) }] ++
      frags.drop (i + n)

/-- Modelled from the spec: consolidation of the whole fragment list, the run
`tiledb_array_consolidate` is called for by the test (it passes no policy). -/
def tiledb_array_consolidate {α : Type} (s : ArraySchema) (frags : List (Fragment α)) :
    List (Fragment α) :=
  consolidate s 0 frags.length frags

/-- Modelled from the spec: a cell sequence in strictly increasing order of a
layout: every cell is ordered before every later one and no two cells share a
coordinate. -/
def strictly_ordered {α : Type} (s : ArraySchema) (l : Layout) (cells : List (Cell α)) : Prop :=
  cells.Pairwise fun a b => layout_le s l a.coords b.coords = true ∧ a.coords ≠ b.coords

/-- Modelled from the spec: the winner at a coordinate among the cells of a
stream in timestamp order: the last cell of the stream at that coordinate
(section 3, invariant). -/
def last_writer {α : Type} (k : List Nat) : List (Cell α) → Option (Cell α)
  | [] => none
  | c :: cs =>
    match last_writer k cs with
    | some x => some x
    | none => if c.coords = k then some c else none

/-- Modelled from the spec: the cells written by a sequence of write queries,
in the order of the queries and, within a query, of its buffers. -/
def written_cells {α : Type} (s : ArraySchema) (ws : List (WriteQuery α)) : List (Cell α) :=
  ws.flatMap fun q =>
    match query_cells s q with
    | Except.ok cells => cells
    | Except.error _ => []

/-- Modelled from the spec: the offsets buffer of a variable-length
attribute, rebuilt from the values in output order: each value starts where the
one before it ends. -/
def rebuild_offsets {β : Type} : Nat → List (List β) → List Nat
  | _, [] => []
  | off, v :: vs => off :: rebuild_offsets (off + v.length) vs

/-- Modelled from the spec: the offsets buffer of a sequence of values,
starting at byte 0. -/
def var_offsets {β : Type} (vals : List (List β)) : List Nat :=
  rebuild_offsets 0 vals

/-- Modelled from the spec: the data buffer of a sequence of values, the value
bytes relocated contiguously. -/
def var_data {β : Type} (vals : List (List β)) : List β :=
  vals.flatten

/-- Modelled from the spec: the values an offsets buffer and a data buffer
stand for: value `k` runs from offset `k` to offset `k + 1`, the last one to the
end of the data. -/
def split_var {β : Type} (offsets : List Nat) (data : List β) : List (List β) :=
  List.zipWith (fun a b => (data.drop a).take (b - a)) offsets (offsets.drop 1 ++ [data.length])

/-- Modelled from the spec: the values of a variable-length attribute in the
cells of a read result, in the order of the result; an empty slot of a dense
result holds no bytes. -/
def var_values {α β : Type} (g : α → List β) (result : List (Cell (Option α))) :
    List (List β) :=
  result.map fun c => (c.val.map g).getD []

/-- Modelled from the spec: the coordinates buffer of a result, flat. -/
def coords_buffer {α : Type} (cells : List (Cell α)) : List Nat :=
  (cells.map fun c => c.coords).flatten

/-- Modelled from the spec: the buffer of an attribute of a result, one entry
per cell in the order of the cells. -/
def attr_buffer {α β : Type} (f : α → β) (cells : List (Cell α)) : List β :=
  cells.map fun c => f c.val

/-! ### The fixture of `unit-capi-consolidation.cc`

Attribute `a3` (two `TILEDB_FLOAT32` per cell) is a fixed-size attribute that
travels with its cell exactly as `a1` does; its float literals are left out. -/

/-- The attribute values of one cell of the test arrays: `a1` (`TILEDB_INT32`)
and `a2` (`TILEDB_CHAR`, variable length, one byte per character). -/
structure Attrs where
  a1 : Int
  a2 : List Char
  deriving DecidableEq, Repr

namespace ConsolidationFx

/-- The cells' attribute values held by the buffers `buffer_a1`, `buffer_a2`
(offsets) and `buffer_var_a2` of a query. -/
def attrs_of_buffers (buffer_a1 : List Int) (buffer_a2 : List Nat) (buffer_var_a2 : List Char) :
    List Attrs :=
  List.zipWith Attrs.mk buffer_a1 (split_var buffer_a2 buffer_var_a2)

/-- The schema built by `create_dense_array`. -/
def dense_schema : ArraySchema :=
  { dense := true
    domain := [{ lo := 1, hi := 4, tile_extent := 2 }, { lo := 1, hi := 4, tile_extent := 2 }]
    cell_order := Layout.ROW_MAJOR
    tile_order := Layout.ROW_MAJOR }

/-- The schema built by `create_sparse_array`. -/
def sparse_schema : ArraySchema :=
  { dense := false
    domain := [{ lo := 1, hi := 4, tile_extent := 2 }, { lo := 1, hi := 4, tile_extent := 2 }]
    cell_order := Layout.ROW_MAJOR
    tile_order := Layout.ROW_MAJOR }

/-- The query of `write_dense_full`. -/
def write_dense_full : WriteQuery Attrs :=
  { layout := Layout.GLOBAL_ORDER
    subarray := none
    coords := none
    values := attrs_of_buffers
      [0, 1, 2, 3, 4, 5, 6, 7, 8, 9, 10, 11, 12, 13, 14, 15]
      [0, 1, 3, 6, 10, 11, 13, 16, 20, 21, 23, 26, 30, 31, 33, 36]
      "abbcccddddeffggghhhhijjkkkllllmnnooopppp".toList }

/-- The query of `write_dense_subarray`. -/
def write_dense_subarray : WriteQuery Attrs :=
  { layout := Layout.GLOBAL_ORDER
    subarray := some [(3, 4), (3, 4)]
    coords := none
    values := attrs_of_buffers [112, 113, 114, 115] [0, 1, 3, 6] "MNNOOOPPPP".toList }

/-- The query of `write_dense_unordered`. -/
def write_dense_unordered : WriteQuery Attrs :=
  { layout := Layout.UNORDERED
    subarray := none
    coords := some [4, 2, 3, 4, 3, 3, 3, 1]
    values := attrs_of_buffers [211, 213, 212, 208] [0, 4, 6, 7] "wwwwyyxu".toList }

/-- The query of `write_sparse_full`. -/
def write_sparse_full : WriteQuery Attrs :=
  { layout := Layout.GLOBAL_ORDER
    subarray := none
    coords := some [1, 1, 1, 2, 1, 4, 2, 3, 3, 1, 4, 2, 3, 3, 3, 4]
    values := attrs_of_buffers [0, 1, 2, 3, 4, 5, 6, 7] [0, 1, 3, 6, 10, 11, 13, 16]
      "abbcccddddeffggghhhh".toList }

/-- The query of `write_sparse_unordered`. -/
def write_sparse_unordered : WriteQuery Attrs :=
  { layout := Layout.UNORDERED
    subarray := none
    coords := some [3, 4, 3, 2, 3, 3, 4, 1]
    values := attrs_of_buffers [107, 104, 106, 105] [0, 3, 4, 5] "yyyuwvvvv".toList }

/-- The array after the queries `ws`; the empty list when a query fails. -/
def written_array (s : ArraySchema) (ws : List (WriteQuery Attrs)) : List (Fragment Attrs) :=
  match apply_writes s ws [] with
  | Except.ok frags => frags
  | Except.error _ => []

/-- The array after the queries `ws` and `tiledb_array_consolidate`. -/
def consolidated_array (s : ArraySchema) (ws : List (WriteQuery Attrs)) : List (Fragment Attrs) :=
  tiledb_array_consolidate s (written_array s ws)

/-- The read query of the dense tests: the whole array in global order; the
attribute values of the result, a slot never written shown as `none`. -/
def read_dense (frags : List (Fragment Attrs)) : List (Option Attrs) :=
  (read dense_schema frags none Layout.GLOBAL_ORDER).map fun c => c.val

/-- The read query of the sparse tests: the whole array in global order. -/
def read_sparse (frags : List (Fragment Attrs)) : List (Cell Attrs) :=
  sparse_read sparse_schema frags none Layout.GLOBAL_ORDER

/-- Buffer `c_buffer_a1` of `read_dense_full_subarray_unordered`. -/
def read_dense_full_subarray_unordered_a1 : List Int :=
  [0, 1, 2, 3, 4, 5, 6, 7, 208, 9, 10, 211, 212, 213, 114, 115]

/-- Buffer `c_buffer_a1` of `read_dense_subarray_full_unordered`. -/
def read_dense_subarray_full_unordered_a1 : List Int :=
  [0, 1, 2, 3, 4, 5, 6, 7, 208, 9, 10, 211, 212, 213, 14, 15]

/-- Buffer `c_buffer_a1` of `read_dense_subarray_unordered_full`. -/
def read_dense_subarray_unordered_full_a1 : List Int :=
  [0, 1, 2, 3, 4, 5, 6, 7, 8, 9, 10, 11, 12, 13, 14, 15]

/-- Buffers `c_buffer_a2` and `c_buffer_var_a2` of
`read_dense_full_subarray_unordered`. -/
def read_dense_full_subarray_unordered_a2 : List Nat × List Char :=
  ([0, 1, 3, 6, 10, 11, 13, 16, 20, 21, 23, 26, 30, 31, 33, 36],
   "abbcccddddeffggghhhhujjkkkwwwwxyyOOOPPPP".toList)

/-- Buffers `c_buffer_a2` and `c_buffer_var_a2` of
`read_dense_subarray_full_unordered`. -/
def read_dense_subarray_full_unordered_a2 : List Nat × List Char :=
  ([0, 1, 3, 6, 10, 11, 13, 16, 20, 21, 23, 26, 30, 31, 33, 36],
   "abbcccddddeffggghhhhujjkkkwwwwxyyooopppp".toList)

/-- Buffers `c_buffer_a2` and `c_buffer_var_a2` of
`read_dense_subarray_unordered_full`. -/
def read_dense_subarray_unordered_full_a2 : List Nat × List Char :=
  ([0, 1, 3, 6, 10, 11, 13, 16, 20, 21, 23, 26, 30, 31, 33, 36],
   "abbcccddddeffggghhhhijjkkkllllmnnooopppp".toList)

/-- The `a2` values of a dense result; an empty slot holds no bytes. -/
def dense_a2 (result : List (Option Attrs)) : List (List Char) :=
  result.map fun o => (o.map Attrs.a2).getD []

/-- Buffer `c_buffer_a1` of `read_sparse_full_unordered`. -/
def read_sparse_full_unordered_a1 : List Int :=
  [0, 1, 2, 3, 4, 104, 105, 5, 106, 107]

/-- Buffers `c_buffer_a2` and `c_buffer_var_a2` of `read_sparse_full_unordered`. -/
def read_sparse_full_unordered_a2 : List Nat × List Char :=
  ([0, 1, 3, 6, 10, 11, 12, 16, 18, 19], "abbcccddddeuvvvvffwyyy".toList)

/-- Buffer `c_buffer_coords` of `read_sparse_full_unordered`. -/
def read_sparse_full_unordered_coords : List Nat :=
  [1, 1, 1, 2, 1, 4, 2, 3, 3, 1, 3, 2, 4, 1, 4, 2, 3, 3, 3, 4]

/-- Buffer `c_buffer_a1` of `read_sparse_unordered_full`. -/
def read_sparse_unordered_full_a1 : List Int :=
  [0, 1, 2, 3, 4, 104, 105, 5, 6, 7]

/-- Buffers `c_buffer_a2` and `c_buffer_var_a2` of `read_sparse_unordered_full`. -/
def read_sparse_unordered_full_a2 : List Nat × List Char :=
  ([0, 1, 3, 6, 10, 11, 12, 16, 18, 21], "abbcccddddeuvvvvffggghhhh".toList)

/-- Buffer `c_buffer_coords` of `read_sparse_unordered_full`. -/
def read_sparse_unordered_full_coords : List Nat :=
  [1, 1, 1, 2, 1, 4, 2, 3, 3, 1, 3, 2, 4, 1, 4, 2, 3, 3, 3, 4]

/-- A sparse write of two cells, at (1, 1) and (1, 2), with `a2` values "a"
and "b": offsets 0 and 1. -/
def write_two_cells : WriteQuery Attrs :=
  { layout := Layout.GLOBAL_ORDER
    subarray := none
    coords := some [1, 1, 1, 2]
    values := attrs_of_buffers [1, 2] [0, 1] "ab".toList }

/-- A sparse write that overwrites the cell at (1, 2) with the longer `a2`
value "cc". -/
def write_overwrite_last : WriteQuery Attrs :=
  { layout := Layout.UNORDERED
    subarray := none
    coords := some [1, 2]
    values := attrs_of_buffers [3] [0] "cc".toList }

/-- A sparse write of three cells, at (1, 1), (1, 2) and (1, 4), in global
order, with `a2` values "a", "b" and "c": offsets 0, 1 and 2. -/
def write_three_cells : WriteQuery Attrs :=
  { layout := Layout.GLOBAL_ORDER
    subarray := none
    coords := some [1, 1, 1, 2, 1, 4]
    values := attrs_of_buffers [1, 2, 3] [0, 1, 2] "abc".toList }

/-- A sparse write that overwrites the cell at (1, 2) with the longer `a2`
value "bbb". -/
def write_overwrite_middle : WriteQuery Attrs :=
  { layout := Layout.UNORDERED
    subarray := none
    coords := some [1, 2]
    values := attrs_of_buffers [5] [0] "bbb".toList }

end ConsolidationFx

/-! ## Theorems about `ValidityVector` -/

namespace ValidityVector

/-- A successful `set_bytemap` on an allocated vector of size `n > 0` leaves a
block holding the first `n` bytes of the argument. -/
theorem set_bytemap_block (b a : List Nat) (n : Nat) (f : Nat → Nat) (hn : 0 < n)
    (ha : n ≤ a.length) :
    set_bytemap { buffer_ := Ptr.block b, buffer_size_ := n } (some f) (Ptr.block a)
      = Outcome.returned (Status.Ok, { buffer_ := Ptr.block (a.take n), buffer_size_ := n }) := by
  have hn0 : n ≠ 0 := Nat.pos_iff_ne_zero.mp hn
  simp [set_bytemap, realloc, memcpy, hn0, ha]

theorem set_bytemaps_block (n : Nat) (hn : 0 < n) (calls : List ((Nat → Nat) × List Nat))
    (last : (Nat → Nat) × List Nat) (hc : ∀ c ∈ calls ++ [last], n ≤ c.2.length) (b : List Nat) :
    set_bytemaps { buffer_ := Ptr.block b, buffer_size_ := n }
        ((calls ++ [last]).map fun c => (some c.1, Ptr.block c.2))
      = Outcome.returned { buffer_ := Ptr.block (last.2.take n), buffer_size_ := n } := by
  induction calls generalizing b with
  | nil =>
    have hl : n ≤ last.2.length := hc last (by simp)
    simp [set_bytemaps, set_bytemap_block b last.2 n last.1 hn hl]
  | cons c cs ih =>
    have hl : n ≤ c.2.length := hc c (by simp)
    have hcs : ∀ c ∈ cs ++ [last], n ≤ c.2.length := fun x hx => hc x (by
      simp only [List.cons_append, List.mem_cons]; exact Or.inr hx)
    have := ih hcs (c.2.take n)
    simp only [List.cons_append, List.map_cons, set_bytemaps,
      set_bytemap_block b c.2 n c.1 hn hl]
    exact this

theorem ctor_size_block (f : Nat → Nat) (garbage : Ptr) (n : Nat) (hn : 0 < n) :
    ctor_size (some f) garbage n
      = Outcome.returned { buffer_ := Ptr.block ((List.range n).map f), buffer_size_ := n } := by
  simp [ctor_size, malloc, hn]

/-- C4 (bytemap round trip): on a vector built by the value constructor with
size `n > 0`, after any non-empty run of `set_bytemap` calls whose arguments hold
at least `n` bytes (every allocation succeeding), `get_bytemap` into a block of at
least `n` bytes returns Ok, leaves the vector as it was and leaves in bytes
`0..n-1` of the destination exactly the first `n` bytes of the last argument, the
rest of the destination untouched; so cell `i` reads non-zero iff it was set
non-zero. -/
theorem bytemap_round_trip (f0 : Nat → Nat) (garbage : Ptr) (n : Nat) (v : ValidityVector)
    (hn : 0 < n) (hv : ctor_size (some f0) garbage n = Outcome.returned v)
    (calls : List ((Nat → Nat) × List Nat)) (last : (Nat → Nat) × List Nat)
    (hc : ∀ c ∈ calls ++ [last], n ≤ c.2.length) (d : List Nat) (hd : n ≤ d.length) :
    ∃ v', v.set_bytemaps ((calls ++ [last]).map fun c => (some c.1, Ptr.block c.2))
          = Outcome.returned v' ∧
      v'.size = n ∧
      v'.get_bytemap (Ptr.block d)
          = Outcome.returned (Status.Ok, v', Ptr.block (last.2.take n ++ d.drop n)) ∧
      (∀ i, i < n → (last.2.take n ++ d.drop n)[i]? = last.2[i]?) ∧
      (∀ i, i < n → ((last.2.take n ++ d.drop n).getD i 0 ≠ 0 ↔ last.2.getD i 0 ≠ 0)) := by
  have hl : n ≤ last.2.length := hc last (by simp)
  have hn0 : n ≠ 0 := Nat.pos_iff_ne_zero.mp hn
  rw [ctor_size_block f0 garbage n hn] at hv
  cases hv
  have hget : ∀ i, i < n → (last.2.take n ++ d.drop n)[i]? = last.2[i]? := by
    intro i hi
    rw [List.getElem?_append_left (by simp; omega), List.getElem?_take_of_lt hi]
  refine ⟨_, set_bytemaps_block n hn calls last hc _, rfl, ?_, hget, ?_⟩
  · simp [get_bytemap, memcpy, hn0, hd, hl]
  · intro i hi
    simp only [List.getD_eq_getElem?_getD, hget i hi]

/-- Witness of C4: a vector of size 2, two `set_bytemap` calls, the last with
bytes 7, 0, 9; the destination 1, 1, 1 reads back 7, 0, 1. -/
theorem bytemap_round_trip_witness :
    ∃ v', (ValidityVector.mk (Ptr.block [0, 0]) 2).set_bytemaps
            [(some (fun _ => 0), Ptr.block [1, 1]), (some (fun _ => 0), Ptr.block [7, 0, 9])]
          = Outcome.returned v' ∧
      v'.get_bytemap (Ptr.block [1, 1, 1])
          = Outcome.returned (Status.Ok, v', Ptr.block [7, 0, 1]) := by
  obtain ⟨v', h1, _, h3, _⟩ := bytemap_round_trip (fun _ => 0) Ptr.null 2
    (ValidityVector.mk (Ptr.block [0, 0]) 2) (by decide) (by decide)
    [((fun _ => 0), [1, 1])] ((fun _ => 0), [7, 0, 9]) (by decide) [1, 1, 1] (by decide)
  exact ⟨v', h1, h3⟩

/-- C5 (allocation failure is fatal): when the allocation fails, the value
constructor with size `n > 0` and `set_bytemap` on a vector of size greater than
zero both end in `LOG_FATAL`; neither returns a status. -/
theorem allocation_failure_is_fatal (garbage : Ptr) (n : Nat) (v : ValidityVector) (arg : Ptr)
    (hn : 0 < n) (hv : 0 < v.size) :
    (∃ msg, ctor_size none garbage n = Outcome.fatal msg) ∧
    (∃ msg, v.set_bytemap none arg = Outcome.fatal msg) ∧
    (∀ w, ctor_size none garbage n ≠ Outcome.returned w) ∧
    (∀ r, v.set_bytemap none arg ≠ Outcome.returned r) := by
  have hv0 : v.buffer_size_ ≠ 0 := Nat.pos_iff_ne_zero.mp hv
  have h1 : ctor_size none garbage n
      = Outcome.fatal "Unable to construct ValidityVector; malloc() failed" := by
    simp [ctor_size, malloc, hn, LOG_FATAL]
  have h2 : v.set_bytemap none arg
      = Outcome.fatal "Unable to set ValidityVector; malloc()/realloc() failed" := by
    by_cases hb : v.buffer_ = Ptr.null <;>
      simp [set_bytemap, malloc, realloc, hv0, hb, LOG_FATAL]
  refine ⟨⟨_, h1⟩, ⟨_, h2⟩, ?_, ?_⟩
  · intro w hw; rw [h1] at hw; cases hw
  · intro r hr; rw [h2] at hr; cases hr

/-- Witness of C5: size 3 for the constructor, an allocated vector of size 1 for
`set_bytemap`. -/
theorem allocation_failure_is_fatal_witness :
    (∃ msg, ctor_size none Ptr.wild 3 = Outcome.fatal msg) ∧
    (∃ msg, (ValidityVector.mk (Ptr.block [1]) 1).set_bytemap none (Ptr.block [0])
        = Outcome.fatal msg) :=
  have h := allocation_failure_is_fatal Ptr.wild 3 (ValidityVector.mk (Ptr.block [1]) 1)
    (Ptr.block [0]) (by decide) (by decide)
  ⟨h.1, h.2.1⟩

/-- C6, as stated, fails: on a vector built with a successful allocation,
`get_bytemap` with a null destination ends in `LOG_FATAL` although no allocation
failed (the call allocates nothing). -/
theorem get_bytemap_null_is_fatal_without_allocation :
    ctor_size (some fun _ => 0) Ptr.null 2
        = Outcome.returned (ValidityVector.mk (Ptr.block [0, 0]) 2) ∧
    (ValidityVector.mk (Ptr.block [0, 0]) 2).get_bytemap Ptr.null
        = Outcome.fatal "Unable to get ValidityVector; validity_vector is empty" := by
  constructor
  · rfl
  · rfl

/-- C6, amended: the value constructor and `set_bytemap` end in `LOG_FATAL` only
when the allocation failed, `get_bytemap` ends there exactly when its destination
is null, the default constructor never does, and every status that is returned is
Ok. -/
theorem fatal_only_on_failed_allocation_or_null_destination (env : Alloc) (garbage : Ptr)
    (n : Nat) (v : ValidityVector) (arg dest : Ptr) :
    (∀ msg, ctor_size env garbage n = Outcome.fatal msg → env = none) ∧
    (∀ msg, v.set_bytemap env arg = Outcome.fatal msg → env = none) ∧
    ((∃ msg, v.get_bytemap dest = Outcome.fatal msg) ↔ dest = Ptr.null) ∧
    (∀ st w, v.set_bytemap env arg = Outcome.returned (st, w) → st = Status.Ok) ∧
    (∀ st w d, v.get_bytemap dest = Outcome.returned (st, w, d) → st = Status.Ok) := by
  refine ⟨?_, ?_, ?_, ?_, ?_⟩
  · intro msg h
    cases env with
    | none => rfl
    | some f =>
      by_cases hn : 0 < n
      · rw [ctor_size_block f garbage n hn] at h; cases h
      · simp [ctor_size, hn] at h
  · intro msg h
    cases env with
    | none => rfl
    | some f =>
      exfalso
      unfold set_bytemap at h
      split at h
      · cases h
      · rcases hb : v.buffer_ with _ | b | _ <;> simp only [hb, realloc, malloc] at h
        · simp at h
          split at h <;> cases h
        · simp at h
          split at h <;> cases h
        · simp at h
  · constructor
    · rintro ⟨msg, h⟩
      by_contra hd
      unfold get_bytemap at h
      rw [if_neg hd] at h
      split at h <;> cases h
    · intro hd
      exact ⟨"Unable to get ValidityVector; validity_vector is empty", by
        simp [get_bytemap, hd, LOG_FATAL]⟩
  · intro st w h
    unfold set_bytemap at h
    by_cases h0 : v.buffer_size_ = 0
    · rw [if_pos h0] at h; cases h; rfl
    · rw [if_neg h0] at h
      simp only at h
      generalize (if v.buffer_ = Ptr.null then some (malloc env v.buffer_size_)
        else realloc env v.buffer_ v.buffer_size_) = r at h
      rcases r with _ | (_ | b | _)
      · cases h
      · cases h
      · simp only at h
        split at h
        · cases h
        · cases h; rfl
      · simp only at h
        split at h
        · cases h
        · cases h; rfl
  · intro st w d h
    unfold get_bytemap at h
    split at h
    · cases h
    · split at h
      · cases h
      · cases h; rfl

/-- Witness of the amended C6 at a failing allocation and a null destination. -/
theorem fatal_only_on_failed_allocation_or_null_destination_witness :
    (∃ msg, (ValidityVector.mk (Ptr.block [1]) 1).get_bytemap Ptr.null = Outcome.fatal msg) :=
  ((fatal_only_on_failed_allocation_or_null_destination none Ptr.null 1
    (ValidityVector.mk (Ptr.block [1]) 1) (Ptr.block [0]) Ptr.null).2.2.1).mpr rfl

end ValidityVector

/-! ## Lemmas about the orders -/

theorem lex_le_nil (b : List Nat) : lex_le [] b = true := by
  cases b <;> rfl

theorem lex_le_cons_nil (a : Nat) (as : List Nat) : lex_le (a :: as) [] = false := rfl

theorem lex_le_cons_cons (a b : Nat) (as bs : List Nat) :
    lex_le (a :: as) (b :: bs) = true ↔ a < b ∨ (a = b ∧ lex_le as bs = true) := by
  simp only [lex_le]
  by_cases h : a < b
  · simp [h]
  · by_cases h2 : a = b
    · simp [h2]
    · simp [h, h2]

theorem lex_le_refl (a : List Nat) : lex_le a a = true := by
  induction a with
  | nil => rfl
  | cons x xs ih => rw [lex_le_cons_cons]; exact Or.inr ⟨rfl, ih⟩

theorem lex_le_total (a b : List Nat) : lex_le a b = true ∨ lex_le b a = true := by
  induction a generalizing b with
  | nil => exact Or.inl (lex_le_nil b)
  | cons x xs ih =>
    cases b with
    | nil => exact Or.inr (lex_le_nil _)
    | cons y ys =>
      rw [lex_le_cons_cons, lex_le_cons_cons]
      rcases Nat.lt_trichotomy x y with h | h | h
      · exact Or.inl (Or.inl h)
      · rcases ih ys with h2 | h2
        · exact Or.inl (Or.inr ⟨h, h2⟩)
        · exact Or.inr (Or.inr ⟨h.symm, h2⟩)
      · exact Or.inr (Or.inl h)

theorem lex_le_trans (a b c : List Nat) (hab : lex_le a b = true) (hbc : lex_le b c = true) :
    lex_le a c = true := by
  induction a generalizing b c with
  | nil => exact lex_le_nil c
  | cons x xs ih =>
    cases b with
    | nil => simp [lex_le_cons_nil] at hab
    | cons y ys =>
      cases c with
      | nil => simp [lex_le_cons_nil] at hbc
      | cons z zs =>
        rw [lex_le_cons_cons] at hab hbc ⊢
        rcases hab with h1 | ⟨h1, h1'⟩
        · rcases hbc with h2 | ⟨h2, _⟩
          · exact Or.inl (by omega)
          · exact Or.inl (by omega)
        · rcases hbc with h2 | ⟨h2, h2'⟩
          · exact Or.inl (by omega)
          · exact Or.inr ⟨by omega, ih ys zs h1' h2'⟩

theorem lex_le_antisymm (a b : List Nat) (hab : lex_le a b = true) (hba : lex_le b a = true) :
    a = b := by
  induction a generalizing b with
  | nil =>
    cases b with
    | nil => rfl
    | cons y ys => simp [lex_le_cons_nil] at hba
  | cons x xs ih =>
    cases b with
    | nil => simp [lex_le_cons_nil] at hab
    | cons y ys =>
      rw [lex_le_cons_cons] at hab hba
      rcases hab with h1 | ⟨h1, h1'⟩
      · rcases hba with h2 | ⟨h2, _⟩ <;> omega
      · rcases hba with h2 | ⟨_, h2'⟩
        · omega
        · rw [h1, ih ys h1' h2']

theorem orient_length (o : Layout) (c : List Nat) : (orient o c).length = c.length := by
  cases o <;> simp [orient]

theorem orient_injective (o : Layout) (c d : List Nat) (h : orient o c = orient o d) : c = d := by
  cases o <;> simpa [orient] using h

theorem global_key_injective (s : ArraySchema) (c d : List Nat)
    (h : global_key s c = global_key s d) : c = d := by
  unfold global_key at h
  have hlen := congrArg List.length h
  simp only [List.length_append, orient_length, tile_coords, List.length_zipWith] at hlen
  have hcd : c.length = d.length := by omega
  have hl : (orient s.tile_order (tile_coords s c)).length
      = (orient s.tile_order (tile_coords s d)).length := by
    simp only [orient_length, tile_coords, List.length_zipWith, hcd]
  exact orient_injective _ _ _ (List.append_inj h hl).2

theorem layout_key_injective (s : ArraySchema) (l : Layout) (c d : List Nat)
    (h : layout_key s l c = layout_key s l d) : c = d := by
  cases l
  · exact h
  · simpa [layout_key] using h
  · exact global_key_injective s c d h
  · exact global_key_injective s c d h

theorem layout_le_refl (s : ArraySchema) (l : Layout) (c : List Nat) :
    layout_le s l c c = true := lex_le_refl _

theorem layout_le_total (s : ArraySchema) (l : Layout) (c d : List Nat) :
    layout_le s l c d = true ∨ layout_le s l d c = true := lex_le_total _ _

theorem layout_le_trans (s : ArraySchema) (l : Layout) (c d e : List Nat)
    (h1 : layout_le s l c d = true) (h2 : layout_le s l d e = true) :
    layout_le s l c e = true := lex_le_trans _ _ _ h1 h2

theorem layout_le_antisymm (s : ArraySchema) (l : Layout) (c d : List Nat)
    (h1 : layout_le s l c d = true) (h2 : layout_le s l d c = true) : c = d :=
  layout_key_injective s l c d (lex_le_antisymm _ _ h1 h2)

theorem coords_le_total (s : ArraySchema) (l : Layout) : IsTotal (List Nat) (coords_le s l) :=
  ⟨fun c d => layout_le_total s l c d⟩

theorem coords_le_trans (s : ArraySchema) (l : Layout) : IsTrans (List Nat) (coords_le s l) :=
  ⟨fun c d e => layout_le_trans s l c d e⟩

/-! ## Lemmas about the winner of a coordinate -/

theorem last_writer_cons {α : Type} (k : List Nat) (c : Cell α) (cs : List (Cell α)) :
    last_writer k (c :: cs)
      = (last_writer k cs).or (if c.coords = k then some c else none) := by
  simp only [last_writer]
  cases last_writer k cs <;> rfl

theorem last_writer_append {α : Type} (k : List Nat) (l₁ l₂ : List (Cell α)) :
    last_writer k (l₁ ++ l₂) = (last_writer k l₂).or (last_writer k l₁) := by
  induction l₁ with
  | nil => cases h : last_writer k l₂ <;> simp [last_writer, h]
  | cons c cs ih =>
    rw [List.cons_append, last_writer_cons, ih, last_writer_cons]
    cases last_writer k l₂ <;> simp

theorem last_writer_some {α : Type} (k : List Nat) (l : List (Cell α)) (x : Cell α)
    (h : last_writer k l = some x) : x.coords = k ∧ x ∈ l := by
  induction l with
  | nil => simp [last_writer] at h
  | cons c cs ih =>
    rw [last_writer_cons] at h
    cases hcs : last_writer k cs with
    | some y =>
      rw [hcs] at h
      simp only [Option.or_some] at h
      cases h
      exact ⟨(ih hcs).1, List.mem_cons_of_mem _ (ih hcs).2⟩
    | none =>
      rw [hcs, Option.none_or] at h
      by_cases hk : c.coords = k
      · rw [if_pos hk] at h; cases h; exact ⟨hk, List.mem_cons_self _ _⟩
      · rw [if_neg hk] at h; cases h

theorem last_writer_eq_none {α : Type} (k : List Nat) (l : List (Cell α)) :
    last_writer k l = none ↔ ∀ x ∈ l, x.coords ≠ k := by
  induction l with
  | nil => simp [last_writer]
  | cons c cs ih =>
    rw [last_writer_cons]
    cases hcs : last_writer k cs with
    | some y =>
      simp only [Option.or_some, List.mem_cons, false_iff, reduceCtorEq]
      intro h
      exact h y (Or.inr (last_writer_some k cs y hcs).2) (last_writer_some k cs y hcs).1
    | none =>
      rw [Option.none_or]
      have := ih.mp hcs
      by_cases hk : c.coords = k
      · simp [hk]
      · simp only [if_neg hk, List.mem_cons, true_iff]
        rintro x (rfl | hx)
        · exact hk
        · exact this x hx

theorem last_writer_filter {α : Type} (k : List Nat) (P : List Nat → Bool) (l : List (Cell α)) :
    last_writer k (l.filter fun c => P c.coords)
      = if P k = true then last_writer k l else none := by
  induction l with
  | nil => simp [last_writer]
  | cons c cs ih =>
    by_cases hc : P c.coords = true
    · rw [List.filter_cons_of_pos (by simpa using hc), last_writer_cons, ih, last_writer_cons]
      by_cases hk : P k = true
      · simp [hk]
      · have : c.coords ≠ k := fun h => hk (h ▸ hc)
        simp [hk, this]
    · rw [List.filter_cons_of_neg (by simpa using hc), ih, last_writer_cons]
      by_cases hk : P k = true
      · have : c.coords ≠ k := fun h => hc (h ▸ hk)
        simp [hk, this]
      · simp [hk]

/-- A sort that never moves a cell behind another cell of the same coordinate
keeps the winner of every coordinate. -/
theorem last_writer_orderedInsert {α : Type} (s : ArraySchema) (l : Layout) (k : List Nat)
    (a : Cell α) (cs : List (Cell α)) :
    last_writer k (List.orderedInsert (cell_le s l) a cs) = last_writer k (a :: cs) := by
  induction cs with
  | nil => rfl
  | cons b bs ih =>
    by_cases hab : cell_le s l a b
    · rw [List.orderedInsert, if_pos hab]
    · rw [List.orderedInsert, if_neg hab, last_writer_cons, ih, last_writer_cons,
        last_writer_cons, last_writer_cons]
      have hne : ¬ (a.coords = k ∧ b.coords = k) := by
        rintro ⟨h1, h2⟩
        apply hab
        unfold cell_le
        rw [h1, h2]
        exact layout_le_refl s l k
      cases last_writer k bs with
      | some y => simp
      | none =>
        by_cases h1 : a.coords = k
        · have h2 : b.coords ≠ k := fun h2 => hne ⟨h1, h2⟩
          simp [h1, h2]
        · simp [h1]

theorem last_writer_insertionSort {α : Type} (s : ArraySchema) (l : Layout) (k : List Nat)
    (cs : List (Cell α)) :
    last_writer k (cs.insertionSort (cell_le s l)) = last_writer k cs := by
  induction cs with
  | nil => rfl
  | cons c cs ih =>
    rw [List.insertionSort, last_writer_orderedInsert, last_writer_cons, ih, last_writer_cons]

theorem last_writer_seal_cells {α : Type} (s : ArraySchema) (l : Layout) (k : List Nat)
    (cs : List (Cell α)) : last_writer k (seal_cells s l cs) = last_writer k cs := by
  cases l <;> simp only [seal_cells, last_writer_insertionSort]

/-- In a list without two cells at one coordinate every cell is the winner of
its coordinate. -/
theorem last_writer_of_mem {α : Type} (l : List (Cell α))
    (hnd : l.Pairwise fun a b => a.coords ≠ b.coords) (x : Cell α) (hx : x ∈ l) :
    last_writer x.coords l = some x := by
  induction l with
  | nil => cases hx
  | cons c cs ih =>
    rw [List.pairwise_cons] at hnd
    rw [last_writer_cons]
    rcases List.mem_cons.mp hx with rfl | hx'
    · have : last_writer x.coords cs = none := by
        rw [last_writer_eq_none]
        intro y hy h
        exact hnd.1 y hy h.symm
      simp [this]
    · rw [ih hnd.2 hx']; simp

/-- Two streams with the same winners: a list without repeated coordinates
whose members are exactly the winners of a stream has the winners of the
stream. -/
theorem last_writer_eq_of_mem_iff {α : Type} (l cells : List (Cell α))
    (hnd : l.Pairwise fun a b => a.coords ≠ b.coords)
    (hmem : ∀ x, x ∈ l ↔ last_writer x.coords cells = some x) (k : List Nat) :
    last_writer k l = last_writer k cells := by
  cases h : last_writer k cells with
  | none =>
    rw [last_writer_eq_none]
    intro x hx hk
    have := (hmem x).mp hx
    rw [hk, h] at this
    cases this
  | some y =>
    have hy := last_writer_some k cells y h
    have : y ∈ l := (hmem y).mpr (by rw [hy.1]; exact h)
    have := last_writer_of_mem l hnd y this
    rwa [hy.1] at this

/-! ## Lemmas about the sparse merge -/

theorem strictly_ordered_nodup_coords {α : Type} (s : ArraySchema) (l : Layout)
    (cells : List (Cell α)) (h : strictly_ordered s l cells) :
    cells.Pairwise fun a b => a.coords ≠ b.coords :=
  List.Pairwise.imp (fun hab => hab.2) h

theorem strictly_ordered_nodup {α : Type} (s : ArraySchema) (l : Layout)
    (cells : List (Cell α)) (h : strictly_ordered s l cells) : cells.Nodup :=
  List.Pairwise.imp (fun hab heq => hab.2 (congrArg Cell.coords heq)) h

/-- Two strictly ordered sequences with the same members are equal. -/
theorem strictly_ordered_ext {α : Type} (s : ArraySchema) (l : Layout) (l₁ l₂ : List (Cell α))
    (h₁ : strictly_ordered s l l₁) (h₂ : strictly_ordered s l l₂)
    (hmem : ∀ x, x ∈ l₁ ↔ x ∈ l₂) : l₁ = l₂ := by
  have hperm : l₁.Perm l₂ :=
    (List.perm_ext_iff_of_nodup (strictly_ordered_nodup s l l₁ h₁)
      (strictly_ordered_nodup s l l₂ h₂)).mpr hmem
  have hanti : IsAntisymm (Cell α)
      (fun a b => layout_le s l a.coords b.coords = true ∧ a.coords ≠ b.coords) :=
    ⟨fun a b hab hba => absurd (layout_le_antisymm s l _ _ hab.1 hba.1) hab.2⟩
  exact @List.eq_of_perm_of_sorted _ _ hanti _ _ hperm h₁ h₂

theorem mem_acc_insert_imp {α : Type} (s : ArraySchema) (c x : Cell α) (l : List (Cell α))
    (h : x ∈ acc_insert s c l) : x = c ∨ x ∈ l := by
  induction l with
  | nil => simpa [acc_insert] using h
  | cons d ds ih =>
    unfold acc_insert at h
    split_ifs at h with h1 h2
    · rcases List.mem_cons.mp h with h | h
      · exact Or.inl h
      · exact Or.inr (List.mem_cons_of_mem _ h)
    · rcases List.mem_cons.mp h with h | h
      · exact Or.inl h
      · exact Or.inr h
    · rcases List.mem_cons.mp h with h | h
      · exact Or.inr (h ▸ List.mem_cons_self _ _)
      · rcases ih h with h | h
        · exact Or.inl h
        · exact Or.inr (List.mem_cons_of_mem _ h)

/-- Behind a cell `d` that the new cell `c` precedes, no cell has the coordinate
of `c`. -/
theorem coords_ne_of_le_of_lt {α : Type} (s : ArraySchema) (c d y : Cell α)
    (hcd : layout_le s Layout.GLOBAL_ORDER c.coords d.coords = true)
    (hdy : layout_le s Layout.GLOBAL_ORDER d.coords y.coords = true ∧ d.coords ≠ y.coords) :
    layout_le s Layout.GLOBAL_ORDER c.coords y.coords = true ∧ c.coords ≠ y.coords := by
  refine ⟨layout_le_trans s _ _ _ _ hcd hdy.1, ?_⟩
  intro h
  rw [h] at hcd
  exact hdy.2 (layout_le_antisymm s _ _ _ hdy.1 hcd)

theorem acc_insert_ordered {α : Type} (s : ArraySchema) (c : Cell α) (l : List (Cell α))
    (h : strictly_ordered s Layout.GLOBAL_ORDER l) :
    strictly_ordered s Layout.GLOBAL_ORDER (acc_insert s c l) := by
  induction l with
  | nil => simp [acc_insert, strictly_ordered]
  | cons d ds ih =>
    unfold strictly_ordered at h ih ⊢
    rw [List.pairwise_cons] at h
    unfold acc_insert
    split_ifs with h1 h2
    · rw [List.pairwise_cons]
      refine ⟨fun y hy => ?_, h.2⟩
      rw [h1]; exact h.1 y hy
    · rw [List.pairwise_cons, List.pairwise_cons]
      refine ⟨fun y hy => ?_, h.1, h.2⟩
      rcases List.mem_cons.mp hy with rfl | hy
      · exact ⟨h2, h1⟩
      · exact coords_ne_of_le_of_lt s c d y h2 (h.1 y hy)
    · rw [List.pairwise_cons]
      refine ⟨fun y hy => ?_, ih h.2⟩
      rcases mem_acc_insert_imp s c y ds hy with rfl | hy
      · refine ⟨?_, fun h => h1 h.symm⟩
        rcases layout_le_total s Layout.GLOBAL_ORDER y.coords d.coords with h | h
        · exact absurd h h2
        · exact h
      · exact h.1 y hy

theorem mem_acc_insert {α : Type} (s : ArraySchema) (c x : Cell α) (l : List (Cell α))
    (h : strictly_ordered s Layout.GLOBAL_ORDER l) :
    x ∈ acc_insert s c l ↔ x = c ∨ (x ∈ l ∧ x.coords ≠ c.coords) := by
  induction l with
  | nil => simp [acc_insert]
  | cons d ds ih =>
    unfold strictly_ordered at h ih
    rw [List.pairwise_cons] at h
    unfold acc_insert
    split_ifs with h1 h2
    · rw [List.mem_cons, List.mem_cons]
      constructor
      · rintro (hx | hx)
        · exact Or.inl hx
        · exact Or.inr ⟨Or.inr hx, fun hc => (h.1 x hx).2 (by rw [hc, h1])⟩
      · rintro (hx | ⟨hx | hx, hne⟩)
        · exact Or.inl hx
        · exact absurd (by rw [hx, h1]) hne
        · exact Or.inr hx
    · rw [List.mem_cons, List.mem_cons]
      constructor
      · rintro (hx | hx | hx)
        · exact Or.inl hx
        · exact Or.inr ⟨Or.inl hx, by rw [hx]; exact fun hc => h1 hc.symm⟩
        · exact Or.inr ⟨Or.inr hx,
            fun hc => (coords_ne_of_le_of_lt s c d x h2 (h.1 x hx)).2 hc.symm⟩
      · rintro (hx | ⟨hx, _⟩)
        · exact Or.inl hx
        · exact Or.inr hx
    · rw [List.mem_cons, ih h.2, List.mem_cons]
      constructor
      · rintro (hx | hx | ⟨hx, hne⟩)
        · exact Or.inr ⟨Or.inl hx, by rw [hx]; exact fun hc => h1 hc.symm⟩
        · exact Or.inl hx
        · exact Or.inr ⟨Or.inr hx, hne⟩
      · rintro (hx | ⟨hx | hx, hne⟩)
        · exact Or.inr (Or.inl hx)
        · exact Or.inl hx
        · exact Or.inr (Or.inr ⟨hx, hne⟩)

theorem sparse_fold_ordered {α : Type} (s : ArraySchema) (cells acc : List (Cell α))
    (h : strictly_ordered s Layout.GLOBAL_ORDER acc) :
    strictly_ordered s Layout.GLOBAL_ORDER (cells.foldl (fun acc c => acc_insert s c acc) acc) := by
  induction cells generalizing acc with
  | nil => exact h
  | cons c cs ih => exact ih _ (acc_insert_ordered s c acc h)

theorem mem_sparse_fold {α : Type} (s : ArraySchema) (cells acc : List (Cell α))
    (h : strictly_ordered s Layout.GLOBAL_ORDER acc) (x : Cell α) :
    x ∈ cells.foldl (fun acc c => acc_insert s c acc) acc
      ↔ last_writer x.coords cells = some x ∨ (last_writer x.coords cells = none ∧ x ∈ acc) := by
  induction cells generalizing acc with
  | nil => simp [last_writer]
  | cons c cs ih =>
    rw [List.foldl_cons, ih _ (acc_insert_ordered s c acc h), mem_acc_insert s c x acc h,
      last_writer_cons]
    cases last_writer x.coords cs with
    | some y => simp
    | none =>
      simp only [Option.none_or, true_and, reduceCtorEq, false_or]
      by_cases hk : c.coords = x.coords
      · simp only [if_pos hk, Option.some.injEq, reduceCtorEq, false_and, or_false]
        constructor
        · rintro (hx | ⟨_, hne⟩)
          · exact hx.symm
          · exact absurd hk.symm hne
        · intro hx; exact Or.inl hx.symm
      · simp only [if_neg hk, reduceCtorEq, true_and, false_or]
        constructor
        · rintro (hx | ⟨hx, _⟩)
          · exact absurd (by rw [hx]) hk
          · exact hx
        · intro hx; exact Or.inr ⟨hx, fun hc => hk hc.symm⟩

theorem sparse_merge_ordered {α : Type} (s : ArraySchema) (cells : List (Cell α)) :
    strictly_ordered s Layout.GLOBAL_ORDER (sparse_merge s cells) :=
  sparse_fold_ordered s cells [] List.Pairwise.nil

/-- The members of the sparse merge are exactly the winners of the stream. -/
theorem mem_sparse_merge {α : Type} (s : ArraySchema) (cells : List (Cell α)) (x : Cell α) :
    x ∈ sparse_merge s cells ↔ last_writer x.coords cells = some x := by
  unfold sparse_merge
  rw [mem_sparse_fold s cells [] List.Pairwise.nil]
  simp

/-- The sparse merge of a stream depends on the winners only. -/
theorem sparse_merge_congr {α : Type} (s : ArraySchema) (c₁ c₂ : List (Cell α))
    (h : ∀ k, last_writer k c₁ = last_writer k c₂) : sparse_merge s c₁ = sparse_merge s c₂ :=
  strictly_ordered_ext s Layout.GLOBAL_ORDER _ _ (sparse_merge_ordered s c₁)
    (sparse_merge_ordered s c₂) (fun x => by rw [mem_sparse_merge, mem_sparse_merge, h])

theorem last_writer_sparse_merge {α : Type} (s : ArraySchema) (cells : List (Cell α))
    (k : List Nat) : last_writer k (sparse_merge s cells) = last_writer k cells :=
  last_writer_eq_of_mem_iff _ _
    (strictly_ordered_nodup_coords s _ _ (sparse_merge_ordered s cells))
    (mem_sparse_merge s cells) k

/-! ## Lemmas about the dense merge -/

theorem cell_offset_lt (c : List Nat) (ps : List (List Nat)) :
    cell_offset c ps < ps.length ↔ c ∈ ps := by
  induction ps with
  | nil => simp [cell_offset]
  | cons p ps ih =>
    unfold cell_offset
    by_cases h : p = c
    · simp [h]
    · have h' : ¬ c = p := fun hc => h hc.symm
      simp only [if_neg h, List.length_cons, Nat.add_lt_add_iff_right, ih, List.mem_cons, h',
        false_or]

theorem getElem?_cell_offset (c : List Nat) (ps : List (List Nat)) (i : Nat)
    (h : cell_offset c ps = i) (hi : i < ps.length) : ps[i]? = some c := by
  induction ps generalizing i with
  | nil => simp at hi
  | cons p ps ih =>
    unfold cell_offset at h
    by_cases hp : p = c
    · rw [if_pos hp] at h; subst h; simp [hp]
    · rw [if_neg hp] at h
      subst h
      rw [List.getElem?_cons_succ]
      exact ih _ rfl (by simpa using hi)

theorem cell_offset_getElem (ps : List (List Nat)) (hnd : ps.Nodup) (i : Nat)
    (hi : i < ps.length) : cell_offset ps[i] ps = i := by
  induction ps generalizing i with
  | nil => simp at hi
  | cons p ps ih =>
    rw [List.nodup_cons] at hnd
    cases i with
    | zero => simp [cell_offset]
    | succ j =>
      have hj : j < ps.length := by simpa using hi
      have hne : p ≠ ps[j] := fun h => hnd.1 (h ▸ List.getElem_mem hj)
      simp only [List.getElem_cons_succ, cell_offset, if_neg hne, ih hnd.2 j hj]

theorem dense_fold_length {α : Type} (ps : List (List Nat)) (cells : List (Cell α))
    (buf : List (Option α)) :
    (cells.foldl (fun buf c => buf.set (cell_offset c.coords ps) (some c.val)) buf).length
      = buf.length := by
  induction cells generalizing buf with
  | nil => rfl
  | cons c cs ih => rw [List.foldl_cons, ih, List.length_set]

theorem dense_fold_get {α : Type} (ps : List (List Nat)) (hnd : ps.Nodup)
    (cells : List (Cell α)) (buf : List (Option α)) (hlen : buf.length = ps.length)
    (i : Nat) (hi : i < ps.length) :
    (cells.foldl (fun buf c => buf.set (cell_offset c.coords ps) (some c.val)) buf)[i]?
      = match last_writer ps[i] cells with
        | some x => some (some x.val)
        | none => buf[i]? := by
  induction cells generalizing buf with
  | nil => simp [last_writer]
  | cons c cs ih =>
    rw [List.foldl_cons, ih _ (by rw [List.length_set, hlen]), last_writer_cons]
    cases last_writer ps[i] cs with
    | some y => simp
    | none =>
      simp only [Option.none_or, List.getElem?_set]
      by_cases hk : c.coords = ps[i]
      · have hidx : cell_offset c.coords ps = i := by
          rw [hk]; exact cell_offset_getElem ps hnd i hi
        rw [if_pos hidx, hidx, if_pos (by rw [hlen]; exact hi), if_pos hk]
      · have hidx : cell_offset c.coords ps ≠ i := by
          intro h
          apply hk
          have := getElem?_cell_offset c.coords ps i h hi
          rw [List.getElem?_eq_getElem hi] at this
          exact (Option.some.inj this).symm
        simp [hk, hidx]

theorem dense_merge_length {α : Type} (ps : List (List Nat)) (cells : List (Cell α)) :
    (dense_merge ps cells).length = ps.length := by
  unfold dense_merge
  rw [dense_fold_length, List.length_replicate]

/-- Slot `i` of the dense merge holds the value of the winner at position `i`,
and is empty when no cell of the stream lies at that position. -/
theorem dense_merge_get {α : Type} (ps : List (List Nat)) (hnd : ps.Nodup)
    (cells : List (Cell α)) (i : Nat) (hi : i < ps.length) :
    (dense_merge ps cells)[i]? = some ((last_writer ps[i] cells).map fun x => x.val) := by
  unfold dense_merge
  rw [dense_fold_get ps hnd cells _ (List.length_replicate _ _) i hi]
  cases last_writer ps[i] cells with
  | some y => rfl
  | none => simp [List.getElem?_replicate, hi]

/-- The dense merge of a stream depends on the winners only. -/
theorem dense_merge_congr {α : Type} (ps : List (List Nat)) (hnd : ps.Nodup)
    (c₁ c₂ : List (Cell α)) (h : ∀ k, last_writer k c₁ = last_writer k c₂) :
    dense_merge ps c₁ = dense_merge ps c₂ := by
  apply List.ext_getElem?
  intro i
  by_cases hi : i < ps.length
  · rw [dense_merge_get ps hnd c₁ i hi, dense_merge_get ps hnd c₂ i hi, h]
  · rw [List.getElem?_eq_none (by rw [dense_merge_length]; omega),
      List.getElem?_eq_none (by rw [dense_merge_length]; omega)]

/-! ## Lemmas about boxes, positions and the non-empty domain -/

theorem in_box_cons_cons (r : Nat × Nat) (b : List (Nat × Nat)) (x : Nat) (c : List Nat) :
    in_box (r :: b) (x :: c) = true ↔ (r.1 ≤ x ∧ x ≤ r.2) ∧ in_box b c = true := by
  simp [in_box]

theorem in_box_length (b : List (Nat × Nat)) (c : List Nat) (h : in_box b c = true) :
    b.length = c.length := by
  induction b generalizing c with
  | nil =>
    cases c with
    | nil => rfl
    | cons x c => simp [in_box] at h
  | cons r b ih =>
    cases c with
    | nil => simp [in_box] at h
    | cons x c =>
      rw [in_box_cons_cons] at h
      simp [ih c h.2]

theorem mem_box_cells (b : List (Nat × Nat)) (c : List Nat) :
    c ∈ box_cells b ↔ in_box b c = true := by
  induction b generalizing c with
  | nil =>
    cases c with
    | nil => simp [box_cells, in_box]
    | cons x c => simp [box_cells, in_box]
  | cons r b ih =>
    cases c with
    | nil => simp [box_cells, in_box]
    | cons x c =>
      rw [in_box_cons_cons, ← ih c]
      simp only [box_cells, List.mem_flatMap, List.mem_map, List.mem_range'_1]
      constructor
      · rintro ⟨y, ⟨hy1, hy2⟩, c', hc', heq⟩
        cases heq
        exact ⟨⟨hy1, by omega⟩, hc'⟩
      · rintro ⟨⟨h1, h2⟩, hc⟩
        exact ⟨x, ⟨h1, by omega⟩, c, hc, rfl⟩

theorem box_cells_nodup (b : List (Nat × Nat)) : (box_cells b).Nodup := by
  induction b with
  | nil => simp [box_cells]
  | cons r b ih =>
    unfold box_cells
    rw [List.nodup_flatMap]
    constructor
    · intro x _
      exact List.Nodup.map (fun c d h => (List.cons.inj h).2) ih
    · have hr : (List.range' r.1 (r.2 + 1 - r.1)).Nodup := List.nodup_range' _ _
      refine List.Pairwise.imp ?_ hr
      intro x y hxy
      simp only [Function.onFun]
      intro c hc1 hc2
      rw [List.mem_map] at hc1 hc2
      obtain ⟨c1, _, rfl⟩ := hc1
      obtain ⟨c2, _, h2⟩ := hc2
      exact hxy (List.cons.inj h2).1.symm

theorem positions_perm (s : ArraySchema) (l : Layout) (box : List (Nat × Nat)) :
    (positions s l box).Perm (box_cells box) :=
  List.perm_insertionSort _ _

theorem positions_nodup (s : ArraySchema) (l : Layout) (box : List (Nat × Nat)) :
    (positions s l box).Nodup :=
  (positions_perm s l box).nodup_iff.mpr (box_cells_nodup box)

theorem mem_positions (s : ArraySchema) (l : Layout) (box : List (Nat × Nat)) (c : List Nat) :
    c ∈ positions s l box ↔ in_box box c = true := by
  rw [(positions_perm s l box).mem_iff, mem_box_cells]

theorem positions_length (s : ArraySchema) (l : Layout) (box : List (Nat × Nat)) :
    (positions s l box).length = (box_cells box).length :=
  (positions_perm s l box).length_eq

theorem positions_sorted (s : ArraySchema) (l : Layout) (box : List (Nat × Nat)) :
    (positions s l box).Sorted (coords_le s l) :=
  @List.sorted_insertionSort _ (coords_le s l) _ (coords_le_total s l) (coords_le_trans s l) _

theorem hull_step_length (b : List (Nat × Nat)) (c : List Nat) (h : c.length = b.length) :
    (hull_step b c).length = b.length := by
  simp [hull_step, h]

theorem in_box_hull_step_self (b : List (Nat × Nat)) (c : List Nat) (h : c.length = b.length) :
    in_box (hull_step b c) c = true := by
  induction b generalizing c with
  | nil =>
    cases c with
    | nil => rfl
    | cons x c => simp at h
  | cons r b ih =>
    cases c with
    | nil => simp at h
    | cons x c =>
      simp only [hull_step, List.zipWith_cons_cons]
      rw [in_box_cons_cons]
      exact ⟨⟨Nat.min_le_right _ _, Nat.le_max_right _ _⟩, ih c (by simpa using h)⟩

theorem in_box_hull_step_mono (b : List (Nat × Nat)) (c d : List Nat)
    (hc : in_box b c = true) (hd : d.length = b.length) : in_box (hull_step b d) c = true := by
  induction b generalizing c d with
  | nil =>
    cases d with
    | nil => simpa [hull_step] using hc
    | cons y d => simp at hd
  | cons r b ih =>
    cases d with
    | nil => simp at hd
    | cons y d =>
      cases c with
      | nil => simp [in_box] at hc
      | cons x c =>
        rw [in_box_cons_cons] at hc
        simp only [hull_step, List.zipWith_cons_cons]
        rw [in_box_cons_cons]
        refine ⟨⟨?_, ?_⟩, ih c d hc.2 (by simpa using hd)⟩
        · exact Nat.le_trans (Nat.min_le_left _ _) hc.1.1
        · exact Nat.le_trans hc.1.2 (Nat.le_max_left _ _)

theorem in_box_point (c : List Nat) : in_box (c.map fun x => (x, x)) c = true := by
  induction c with
  | nil => rfl
  | cons x c ih => simp [in_box, ih]

theorem hull_fold (cs : List (List Nat)) (b : List (Nat × Nat))
    (hlen : ∀ c ∈ cs, c.length = b.length) :
    (cs.foldl hull_step b).length = b.length ∧
    (∀ c, in_box b c = true → in_box (cs.foldl hull_step b) c = true) ∧
    (∀ c ∈ cs, in_box (cs.foldl hull_step b) c = true) := by
  induction cs generalizing b with
  | nil => simp
  | cons d ds ih =>
    have hd : d.length = b.length := hlen d (List.mem_cons_self _ _)
    have hlen' : ∀ c ∈ ds, c.length = (hull_step b d).length := fun c hc => by
      rw [hull_step_length b d hd]; exact hlen c (List.mem_cons_of_mem _ hc)
    obtain ⟨h1, h2, h3⟩ := ih (hull_step b d) hlen'
    refine ⟨by rw [List.foldl_cons, h1, hull_step_length b d hd], ?_, ?_⟩
    · intro c hc
      exact h2 c (in_box_hull_step_mono b c d hc hd)
    · intro c hc
      rcases List.mem_cons.mp hc with rfl | hc
      · exact h2 c (in_box_hull_step_self b c hd)
      · exact h3 c hc

/-- Every tuple lies in the non-empty domain of a set of tuples of one arity. -/
theorem in_non_empty_domain (cs : List (List Nat)) (n : Nat) (hlen : ∀ c ∈ cs, c.length = n)
    (box : List (Nat × Nat)) (hbox : non_empty_domain cs = some box) (c : List Nat)
    (hc : c ∈ cs) : in_box box c = true := by
  cases cs with
  | nil => cases hc
  | cons d ds =>
    simp only [non_empty_domain, Option.some.injEq] at hbox
    subst hbox
    have hd : d.length = n := hlen d (List.mem_cons_self _ _)
    have hlen' : ∀ c ∈ ds, c.length = (d.map fun x => (x, x)).length := fun c hc => by
      rw [List.length_map, hd]; exact hlen c (List.mem_cons_of_mem _ hc)
    obtain ⟨_, h2, h3⟩ := hull_fold ds _ hlen'
    rcases List.mem_cons.mp hc with rfl | hc
    · exact h2 c (in_box_point c)
    · exact h3 c hc

/-! ## Lemmas about streams, reads and consolidation -/

theorem merge_stream_append {α : Type} (sub : Option (List (Nat × Nat)))
    (f₁ f₂ : List (Fragment α)) :
    merge_stream sub (f₁ ++ f₂) = merge_stream sub f₁ ++ merge_stream sub f₂ := by
  simp [merge_stream, List.flatMap_append]

theorem merge_stream_filter {α : Type} (sub : Option (List (Nat × Nat)))
    (frags : List (Fragment α)) :
    merge_stream sub frags
      = (merge_stream none frags).filter fun c => in_subarray sub c.coords := by
  induction frags with
  | nil => rfl
  | cons f fs ih =>
    have h1 : merge_stream sub (f :: fs)
        = (f.cells.filter fun c => in_subarray sub c.coords) ++ merge_stream sub fs := rfl
    have h2 : merge_stream none (f :: fs)
        = (f.cells.filter fun c => in_subarray none c.coords) ++ merge_stream none fs := rfl
    rw [h1, h2, List.filter_append, ih]
    congr 1
    simp [in_subarray]

theorem merge_stream_singleton {α : Type} (t : Nat × Nat) (cells : List (Cell α)) :
    merge_stream none [{ timestamp := t, cells := cells }] = cells := by
  simp [merge_stream, in_subarray]

theorem last_writer_merge_stream {α : Type} (sub : Option (List (Nat × Nat)))
    (frags : List (Fragment α)) (k : List Nat) :
    last_writer k (merge_stream sub frags)
      = if in_subarray sub k = true then last_writer k (merge_stream none frags) else none := by
  rw [merge_stream_filter, last_writer_filter k (in_subarray sub)]

/-- The dense merge, slot by slot. -/
theorem dense_merge_eq_map {α : Type} (ps : List (List Nat)) (hnd : ps.Nodup)
    (cells : List (Cell α)) :
    dense_merge ps cells = ps.map fun p => (last_writer p cells).map fun x => x.val := by
  apply List.ext_getElem?
  intro i
  by_cases hi : i < ps.length
  · rw [dense_merge_get ps hnd cells i hi, List.getElem?_map, List.getElem?_eq_getElem hi]
    rfl
  · rw [List.getElem?_eq_none (by rw [dense_merge_length]; omega),
      List.getElem?_eq_none (by rw [List.length_map]; omega)]

theorem zipWith_map_self {α β γ : Type} (f : α → β → γ) (g : α → β) (l : List α) :
    List.zipWith f l (l.map g) = l.map fun a => f a (g a) := by
  induction l with
  | nil => rfl
  | cons a l ih => simp [ih]

/-- A dense read in global order lists the positions of the box in global
order, each with the value of its winner. -/
theorem dense_read_box_global {α : Type} (s : ArraySchema) (frags : List (Fragment α))
    (box : List (Nat × Nat)) :
    dense_read_box s frags box Layout.GLOBAL_ORDER
      = (positions s Layout.GLOBAL_ORDER box).map fun p =>
          Cell.mk p ((last_writer p (merge_stream none frags)).map fun x => x.val) := by
  simp only [dense_read_box]
  rw [dense_merge_eq_map _ (positions_nodup s _ box), zipWith_map_self]

/-- The reads of two fragment lists with the same winners are equal. -/
theorem read_congr {α : Type} (s : ArraySchema) (f₁ f₂ : List (Fragment α))
    (h : ∀ k, last_writer k (merge_stream none f₁) = last_writer k (merge_stream none f₂))
    (sub : Option (List (Nat × Nat))) (l : Layout) : read s f₁ sub l = read s f₂ sub l := by
  unfold read
  split_ifs with hd
  · unfold dense_read dense_read_box
    simp only
    rw [dense_merge_congr _ (positions_nodup s _ _) _ _ h]
  · unfold sparse_read
    rw [sparse_merge_congr s (merge_stream sub f₁) (merge_stream sub f₂)
      (fun k => by
        rw [last_writer_merge_stream sub f₁, last_writer_merge_stream sub f₂, h])]

/-- The cells of a dense consolidated fragment are the winners of the run, in
global order of their positions. -/
theorem dense_consolidated_eq {α : Type} (s : ArraySchema) (run : List (Fragment α))
    (box : List (Nat × Nat)) :
    ((dense_read_box s run box Layout.GLOBAL_ORDER).filterMap fun c =>
        c.val.map fun v => Cell.mk c.coords v)
      = (positions s Layout.GLOBAL_ORDER box).filterMap fun p =>
          last_writer p (merge_stream none run) := by
  rw [dense_read_box_global, List.filterMap_map]
  apply List.filterMap_congr
  intro p _
  simp only [Function.comp]
  cases h : last_writer p (merge_stream none run) with
  | none => rfl
  | some y =>
    have := (last_writer_some p _ y h).1
    simp only [Option.map_some', Option.some.injEq]
    rw [← this]

/-- A consolidated fragment has the winners of its run, provided every cell
of a dense run has one coordinate per dimension. -/
theorem last_writer_consolidated_cells {α : Type} (s : ArraySchema) (run : List (Fragment α))
    (n : Nat) (harity : s.dense = true → ∀ c ∈ merge_stream none run, c.coords.length = n)
    (k : List Nat) :
    last_writer k (consolidated_cells s run) = last_writer k (merge_stream none run) := by
  unfold consolidated_cells
  split_ifs with hd
  · cases hbox : non_empty_domain ((merge_stream none run).map fun c => c.coords) with
    | none =>
      have hnil : merge_stream none run = [] := by
        cases hm : merge_stream none run with
        | nil => rfl
        | cons c cs => rw [hm] at hbox; simp [non_empty_domain] at hbox
      simp [hnil]
    | some box =>
      simp only
      rw [dense_consolidated_eq]
      apply last_writer_eq_of_mem_iff
      · refine List.Pairwise.filterMap _ ?_ (positions_nodup s Layout.GLOBAL_ORDER box)
        intro p q hpq x hx y hy hxy
        have h1 := (last_writer_some p _ x hx).1
        have h2 := (last_writer_some q _ y hy).1
        exact hpq (by rw [← h1, ← h2, hxy])
      · intro x
        rw [List.mem_filterMap]
        constructor
        · rintro ⟨p, _, hp⟩
          have := (last_writer_some p _ x hp).1
          rw [this]; exact hp
        · intro hx
          refine ⟨x.coords, ?_, hx⟩
          rw [mem_positions]
          have hmem := (last_writer_some _ _ x hx).2
          apply in_non_empty_domain _ n _ box hbox
          · exact List.mem_map_of_mem _ hmem
          · intro c hc
            rw [List.mem_map] at hc
            obtain ⟨y, hy, rfl⟩ := hc
            exact harity hd y hy
  · unfold sparse_read reorder
    exact last_writer_sparse_merge s _ k

/-- Consolidation of a run keeps the winner of every coordinate. -/
theorem last_writer_consolidate {α : Type} (s : ArraySchema) (i n : Nat)
    (frags : List (Fragment α)) (m : Nat)
    (harity : s.dense = true → ∀ c ∈ merge_stream none frags, c.coords.length = m)
    (k : List Nat) :
    last_writer k (merge_stream none (consolidate s i n frags))
      = last_writer k (merge_stream none frags) := by
  unfold consolidate
  cases hrun : (frags.drop i).take n with
  | nil => rfl
  | cons f run =>
    simp only
    have hsplit : frags = frags.take i ++ ((f :: run) ++ frags.drop (i + n)) := by
      rw [← hrun]
      have h1 := List.take_append_drop n (frags.drop i)
      rw [List.drop_drop] at h1
      rw [h1, List.take_append_drop]
    have harity' : s.dense = true → ∀ c ∈ merge_stream none (f :: run), c.coords.length = m := by
      intro hd c hc
      apply harity hd c
      rw [hsplit, merge_stream_append, merge_stream_append]
      exact List.mem_append_right _ (List.mem_append_left _ hc)
    conv_rhs => rw [hsplit]
    rw [List.append_assoc, merge_stream_append, merge_stream_append, merge_stream_append,
      merge_stream_append, last_writer_append, last_writer_append, last_writer_append,
      last_writer_append, merge_stream_singleton,
      last_writer_consolidated_cells s (f :: run) m harity' k]

/-! ## Lemmas about the writer -/

theorem mem_zipWith_coords {α : Type} (xs : List (List Nat)) (vs : List α) (c : Cell α)
    (h : c ∈ List.zipWith Cell.mk xs vs) : c.coords ∈ xs := by
  induction xs generalizing vs with
  | nil => simp at h
  | cons x xs ih =>
    cases vs with
    | nil => simp at h
    | cons v vs =>
      rw [List.zipWith_cons_cons, List.mem_cons] at h
      rcases h with rfl | h
      · exact List.mem_cons_self _ _
      · exact List.mem_cons_of_mem _ (ih vs h)

theorem chunks_arity (n k : Nat) (l : List Nat) (h : l.length = n * k) :
    ∀ c ∈ chunks n k l, c.length = n := by
  induction k generalizing l with
  | zero => intro c hc; simp [chunks] at hc
  | succ k ih =>
    intro c hc
    rw [chunks, List.mem_cons] at hc
    have hmul : n * (k + 1) = n * k + n := Nat.mul_succ n k
    rcases hc with rfl | hc
    · rw [List.length_take]; omega
    · exact ih (l.drop n) (by rw [List.length_drop]; omega) c hc

/-- Every cell of a write query that is accepted has one coordinate per
dimension. -/
theorem query_cells_arity {α : Type} (s : ArraySchema) (q : WriteQuery α)
    (cells : List (Cell α)) (h : query_cells s q = Except.ok cells) :
    ∀ c ∈ cells, c.coords.length = s.domain.length := by
  unfold query_cells at h
  cases hc : q.coords with
  | some flat =>
    rw [hc] at h
    simp only at h
    split_ifs at h with h1
    cases h
    intro c hmem
    exact chunks_arity _ _ flat h1 _ (mem_zipWith_coords _ _ c hmem)
  | none =>
    rw [hc] at h
    simp only at h
    split_ifs at h with h1 h2 h3
    cases h
    intro c hmem
    have := mem_zipWith_coords _ _ c hmem
    rw [mem_positions] at this
    rw [← in_box_length _ _ this]
    exact h3.1

theorem mem_seal_cells {α : Type} (s : ArraySchema) (l : Layout) (cells : List (Cell α))
    (c : Cell α) : c ∈ seal_cells s l cells ↔ c ∈ cells := by
  cases l <;> simp only [seal_cells] <;>
    first | exact Iff.rfl | exact (List.perm_insertionSort _ _).mem_iff

theorem written_cells_cons {α : Type} (s : ArraySchema) (q : WriteQuery α)
    (qs : List (WriteQuery α)) (cells : List (Cell α)) (h : query_cells s q = Except.ok cells) :
    written_cells s (q :: qs) = cells ++ written_cells s qs := by
  simp [written_cells, h]

theorem write_ok {α : Type} (s : ArraySchema) (frags frags' : List (Fragment α))
    (q : WriteQuery α) (h : write s frags q = Except.ok frags') :
    ∃ cells, query_cells s q = Except.ok cells ∧
      frags' = frags ++ [{ timestamp := (next_timestamp frags, next_timestamp frags),
                           cells := seal_cells s q.layout cells }] := by
  unfold write at h
  cases hq : query_cells s q with
  | error e => rw [hq] at h; cases h
  | ok cells => rw [hq] at h; cases h; exact ⟨cells, rfl, rfl⟩

/-- After a sequence of accepted writes the winner of a coordinate is the
last cell written at it, or the winner of the array as it was before when none
was written; every cell has one coordinate per dimension. -/
theorem apply_writes_spec {α : Type} (s : ArraySchema) (ws : List (WriteQuery α))
    (frags₀ frags : List (Fragment α)) (h : apply_writes s ws frags₀ = Except.ok frags) :
    (∀ k, last_writer k (merge_stream none frags)
        = (last_writer k (written_cells s ws)).or (last_writer k (merge_stream none frags₀))) ∧
    ((∀ c ∈ merge_stream none frags₀, c.coords.length = s.domain.length) →
      ∀ c ∈ merge_stream none frags, c.coords.length = s.domain.length) := by
  induction ws generalizing frags₀ with
  | nil =>
    simp only [apply_writes, Except.ok.injEq] at h
    subst h
    exact ⟨fun k => by simp [written_cells, last_writer], fun h => h⟩
  | cons q qs ih =>
    unfold apply_writes at h
    cases hw : write s frags₀ q with
    | error e => rw [hw] at h; cases h
    | ok frags₁ =>
      rw [hw] at h
      simp only at h
      obtain ⟨cells, hq, hf⟩ := write_ok s frags₀ frags₁ q hw
      obtain ⟨ih1, ih2⟩ := ih frags₁ h
      have hstream : merge_stream none frags₁
          = merge_stream none frags₀ ++ seal_cells s q.layout cells := by
        rw [hf, merge_stream_append, merge_stream_singleton]
      constructor
      · intro k
        rw [ih1 k, hstream, last_writer_append, last_writer_seal_cells,
          written_cells_cons s q qs cells hq, last_writer_append]
        cases last_writer k (written_cells s qs) <;> simp
      · intro h0
        apply ih2
        intro c hc
        rw [hstream, List.mem_append, mem_seal_cells] at hc
        rcases hc with hc | hc
        · exact h0 c hc
        · exact query_cells_arity s q cells hq c hc

/-- The array built by a sequence of accepted writes. -/
theorem apply_writes_from_empty {α : Type} (s : ArraySchema) (ws : List (WriteQuery α))
    (frags : List (Fragment α)) (h : apply_writes s ws [] = Except.ok frags) :
    (∀ k, last_writer k (merge_stream none frags) = last_writer k (written_cells s ws)) ∧
    (∀ c ∈ merge_stream none frags, c.coords.length = s.domain.length) := by
  obtain ⟨h1, h2⟩ := apply_writes_spec s ws [] frags h
  constructor
  · intro k
    rw [h1 k]
    cases last_writer k (written_cells s ws) <;> simp [merge_stream, last_writer]
  · exact h2 (by simp [merge_stream])

theorem foldl_max_range (m : Nat) : (List.range' 1 m).foldl max 0 = m := by
  induction m with
  | zero => rfl
  | succ m ih =>
    rw [List.range'_concat, List.foldl_append, ih]
    simp only [List.foldl_cons, List.foldl_nil, Nat.mul_one]
    omega

/-- The writer gives the fragments the timestamps 1, 2, 3, ... in the order of
the writes. -/
theorem apply_writes_timestamps {α : Type} (s : ArraySchema) (ws : List (WriteQuery α))
    (frags₀ frags : List (Fragment α)) (m : Nat)
    (h₀ : frags₀.map (fun f => f.timestamp) = (List.range' 1 m).map fun t => (t, t))
    (h : apply_writes s ws frags₀ = Except.ok frags) :
    frags.map (fun f => f.timestamp) = (List.range' 1 (m + ws.length)).map fun t => (t, t) := by
  induction ws generalizing frags₀ m with
  | nil =>
    simp only [apply_writes, Except.ok.injEq] at h
    subst h
    simpa using h₀
  | cons q qs ih =>
    unfold apply_writes at h
    cases hw : write s frags₀ q with
    | error e => rw [hw] at h; cases h
    | ok frags₁ =>
      rw [hw] at h
      simp only at h
      obtain ⟨cells, _, hf⟩ := write_ok s frags₀ frags₁ q hw
      have hnext : next_timestamp frags₀ = m + 1 := by
        unfold next_timestamp
        have : frags₀.map (fun f => f.timestamp.2) = List.range' 1 m := by
          have := congrArg (List.map Prod.snd) h₀
          rw [List.map_map, List.map_map] at this
          rw [show (fun f : Fragment α => f.timestamp.2) = Prod.snd ∘ fun f => f.timestamp from rfl,
            this]
          exact List.map_id' _
        rw [this, foldl_max_range]
      have h₁ : frags₁.map (fun f => f.timestamp)
          = (List.range' 1 (m + 1)).map fun t => (t, t) := by
        rw [hf, List.map_append, h₀, List.range'_concat, List.map_append, hnext]
        simp [Nat.add_comm]
      have := ih frags₁ (m + 1) h₁ h
      rw [this, List.length_cons]
      congr 2
      omega

theorem timestamps_increasing (n : Nat) :
    ((List.range' 1 n).map fun t => (t, t)).Pairwise fun a b : Nat × Nat => a.2 < b.1 := by
  rw [List.pairwise_map]
  exact List.Pairwise.imp (fun h => h) (List.pairwise_lt_range' 1 n)

/-! ## Lemmas about sparse reads -/

theorem reorder_perm {α : Type} (s : ArraySchema) (l : Layout) (cells : List (Cell α)) :
    (reorder s l cells).Perm cells := by
  cases l <;> simp only [reorder] <;>
    first | exact List.Perm.refl _ | exact List.perm_insertionSort _ _

/-- The cells of a sparse read are exactly the winners of the stream, one
per coordinate. -/
theorem sparse_read_spec {α : Type} (s : ArraySchema) (frags : List (Fragment α))
    (sub : Option (List (Nat × Nat))) (l : Layout) :
    (∀ x, x ∈ sparse_read s frags sub l
        ↔ last_writer x.coords (merge_stream sub frags) = some x) ∧
    ((sparse_read s frags sub l).map fun c => c.coords).Nodup := by
  unfold sparse_read
  constructor
  · intro x
    rw [(reorder_perm s l _).mem_iff, mem_sparse_merge]
  · rw [((reorder_perm s l _).map _).nodup_iff]
    unfold List.Nodup
    rw [List.pairwise_map]
    exact strictly_ordered_nodup_coords s _ _ (sparse_merge_ordered s _)

theorem dedup_length_lt {β : Type} [DecidableEq β] (l : List β) (h : ¬ l.Nodup) :
    l.dedup.length < l.length := by
  have hsub := List.dedup_sublist l
  rcases Nat.lt_or_ge l.dedup.length l.length with hlt | hge
  · exact hlt
  · exact absurd (List.dedup_eq_self.mp (hsub.eq_of_length_le hge)) h

/-- The sparse read of an array built by accepted writes, after the
consolidation of any run: its cells are the last cells written at their
coordinates, and their number is the number of distinct coordinates written. -/
theorem sparse_read_written {α : Type} (s : ArraySchema) (ws : List (WriteQuery α))
    (frags : List (Fragment α)) (hw : apply_writes s ws [] = Except.ok frags) (i n : Nat)
    (l : Layout) :
    (∀ x, x ∈ sparse_read s (consolidate s i n frags) none l
        ↔ last_writer x.coords (written_cells s ws) = some x) ∧
    (sparse_read s (consolidate s i n frags) none l).length
      = ((written_cells s ws).map fun c => c.coords).dedup.length := by
  obtain ⟨h1, h2⟩ := apply_writes_from_empty s ws frags hw
  obtain ⟨hmem, hnd⟩ := sparse_read_spec s (consolidate s i n frags) none l
  have hmem' : ∀ x, x ∈ sparse_read s (consolidate s i n frags) none l
      ↔ last_writer x.coords (written_cells s ws) = some x := fun x => by
    rw [hmem x, last_writer_consolidate s i n frags s.domain.length (fun _ => h2), h1]
  refine ⟨hmem', ?_⟩
  rw [← List.length_map (sparse_read s (consolidate s i n frags) none l) fun c => c.coords]
  apply List.Perm.length_eq
  rw [List.perm_ext_iff_of_nodup hnd (List.nodup_dedup _)]
  intro k
  rw [List.mem_dedup, List.mem_map, List.mem_map]
  constructor
  · rintro ⟨x, hx, rfl⟩
    exact ⟨x, (last_writer_some _ _ x ((hmem' x).mp hx)).2, rfl⟩
  · rintro ⟨y, hy, rfl⟩
    cases hlw : last_writer y.coords (written_cells s ws) with
    | none => exact absurd rfl ((last_writer_eq_none _ _).mp hlw y hy)
    | some x =>
      have hx := last_writer_some _ _ x hlw
      exact ⟨x, (hmem' x).mpr (by rw [hx.1]; exact hlw), hx.1⟩

/-! ## Lemmas about variable-length offsets -/

theorem rebuild_offsets_length {β : Type} (off : Nat) (vals : List (List β)) :
    (rebuild_offsets off vals).length = vals.length := by
  induction vals generalizing off with
  | nil => rfl
  | cons v vs ih => simp [rebuild_offsets, ih]

theorem rebuild_offsets_get {β : Type} (off : Nat) (vals : List (List β)) (k : Nat)
    (hk : k < vals.length) :
    (rebuild_offsets off vals)[k]? = some (off + ((vals.take k).map List.length).sum) := by
  induction vals generalizing off k with
  | nil => simp at hk
  | cons v vs ih =>
    cases k with
    | zero => simp [rebuild_offsets]
    | succ j =>
      have hj : j < vs.length := by simpa using hk
      simp only [rebuild_offsets, List.getElem?_cons_succ, ih (off + v.length) j hj,
        List.take_succ_cons, List.map_cons, List.sum_cons, Nat.add_assoc]

theorem sum_take_succ {β : Type} (vals : List (List β)) (k : Nat) (hk : k < vals.length) :
    ((vals.take (k + 1)).map List.length).sum
      = ((vals.take k).map List.length).sum + (vals.getD k []).length := by
  induction vals generalizing k with
  | nil => simp at hk
  | cons v vs ih =>
    cases k with
    | zero => simp
    | succ j =>
      have hj : j < vs.length := by simpa using hk
      simp only [List.take_succ_cons, List.map_cons, List.sum_cons, ih j hj,
        List.getD_cons_succ, Nat.add_assoc]

/-- Decoding rebuilt offsets against the relocated bytes gives back the values:
with the bytes `pre` in front, the value at each offset is the value written. -/
theorem split_rebuild {β : Type} (pre : List β) (vals : List (List β)) :
    List.zipWith (fun a b => ((pre ++ vals.flatten).drop a).take (b - a))
        (rebuild_offsets pre.length vals)
        ((rebuild_offsets pre.length vals).drop 1 ++ [(pre ++ vals.flatten).length])
      = vals := by
  induction vals generalizing pre with
  | nil => rfl
  | cons v vs ih =>
    have hih := ih (pre ++ v)
    simp only [List.length_append, List.append_assoc] at hih
    simp only [rebuild_offsets, List.drop_succ_cons, List.drop_zero, List.flatten_cons]
    cases vs with
    | nil =>
      simp [rebuild_offsets]
    | cons v' vs' =>
      simp only [rebuild_offsets, List.cons_append, List.zipWith_cons_cons, List.flatten_cons]
      simp only [rebuild_offsets, List.drop_succ_cons, List.drop_zero, List.flatten_cons,
        List.cons_append, List.zipWith_cons_cons] at hih
      simp only [List.length_append] at hih ⊢
      rw [hih]
      congr 1
      simp

theorem rebuild_offsets_eq_iff {β : Type} (off : Nat) (xs ys : List (List β)) :
    rebuild_offsets off xs = rebuild_offsets off ys
      ↔ xs.length = ys.length
        ∧ (xs.map List.length).dropLast = (ys.map List.length).dropLast := by
  induction xs generalizing off ys with
  | nil =>
    cases ys with
    | nil => simp
    | cons y ys => simp [rebuild_offsets]
  | cons x xs ih =>
    cases ys with
    | nil => simp [rebuild_offsets]
    | cons y ys =>
      cases xs with
      | nil =>
        cases ys with
        | nil => simp [rebuild_offsets]
        | cons y' ys' => simp [rebuild_offsets]
      | cons x' xs' =>
        cases ys with
        | nil => simp [rebuild_offsets]
        | cons y' ys' =>
          have hih := ih (off + x.length) (y' :: ys')
          have hstep : rebuild_offsets off (x :: x' :: xs') = rebuild_offsets off (y :: y' :: ys')
              ↔ rebuild_offsets (off + x.length) (x' :: xs')
                  = rebuild_offsets (off + y.length) (y' :: ys') := by
            constructor
            · intro h; exact (List.cons.inj h).2
            · intro h; show off :: _ = off :: _; rw [h]
          have hdrop : (List.map List.length (x :: x' :: xs')).dropLast
                = (List.map List.length (y :: y' :: ys')).dropLast
              ↔ x.length = y.length ∧ (List.map List.length (x' :: xs')).dropLast
                  = (List.map List.length (y' :: ys')).dropLast := by
            simp only [List.map_cons, List.dropLast_cons₂, List.cons.injEq]
          rw [hstep, hdrop]
          by_cases hxy : x.length = y.length
          · rw [← hxy, hih]
            simp only [List.length_cons, Nat.add_right_cancel_iff, hxy, true_and]
          · constructor
            · intro h
              have := (List.cons.inj h).1
              omega
            · intro h
              exact absurd h.2.1 hxy

/-! ## Lemmas about the buffers of a merged result -/

/-- The offsets and data buffers of a sequence of values: one offset per value,
each the sum of the lengths before it, and decoding gives the values back. -/
theorem var_buffers_spec {β : Type} (vals : List (List β)) :
    (var_offsets vals).length = vals.length ∧
    (∀ k, k < vals.length →
      (var_offsets vals)[k]? = some ((vals.take k).map List.length).sum) ∧
    (vals ≠ [] → (var_offsets vals)[0]? = some 0) ∧
    (∀ k, k + 1 < vals.length →
      (var_offsets vals).getD (k + 1) 0 = (var_offsets vals).getD k 0 + (vals.getD k []).length) ∧
    split_var (var_offsets vals) (var_data vals) = vals := by
  have hget : ∀ k, k < vals.length →
      (var_offsets vals)[k]? = some ((vals.take k).map List.length).sum := fun k hk => by
    have := rebuild_offsets_get 0 vals k hk
    simpa [var_offsets] using this
  refine ⟨?_, hget, ?_, ?_, ?_⟩
  · rw [var_offsets, rebuild_offsets_length]
  · intro hne
    have hpos : 0 < vals.length := List.length_pos.mpr hne
    simpa using hget 0 hpos
  · intro k hk
    rw [List.getD_eq_getElem?_getD, List.getD_eq_getElem?_getD, hget (k + 1) hk,
      hget k (by omega)]
    exact sum_take_succ vals k (by omega)
  · have := split_rebuild ([] : List β) vals
    simpa [split_var, var_offsets, var_data] using this

/-- A dense read in any layout lists the positions of the box in the order of
the layout, each with the value of its winner. -/
theorem dense_read_box_eq {α : Type} (s : ArraySchema) (frags : List (Fragment α))
    (box : List (Nat × Nat)) (l : Layout) :
    dense_read_box s frags box l
      = (positions s l box).map fun p =>
          Cell.mk p ((last_writer p (merge_stream none frags)).map fun x => x.val) := by
  have hother : (positions s l box).map (fun p => Cell.mk p
        ((dense_merge (positions s Layout.GLOBAL_ORDER box) (merge_stream none frags)).getD
          (cell_offset p (positions s Layout.GLOBAL_ORDER box)) none))
      = (positions s l box).map fun p =>
          Cell.mk p ((last_writer p (merge_stream none frags)).map fun x => x.val) := by
    apply List.map_congr_left
    intro p hp
    have hmem : p ∈ positions s Layout.GLOBAL_ORDER box := by
      rw [mem_positions] at hp ⊢; exact hp
    have hlt := (cell_offset_lt p _).mpr hmem
    have hget := getElem?_cell_offset p _ _ rfl hlt
    rw [dense_merge_eq_map _ (positions_nodup s _ box), List.getD_eq_getElem?_getD,
      List.getElem?_map, hget]
    rfl
  cases l
  · exact hother
  · exact hother
  · exact dense_read_box_global s frags box
  · exact dense_read_box_global s frags box

/-- A sparse read is strictly increasing in the order of the requested
layout. -/
theorem sparse_read_ordered {α : Type} (s : ArraySchema) (frags : List (Fragment α))
    (sub : Option (List (Nat × Nat))) (l : Layout) :
    strictly_ordered s l (sparse_read s frags sub l) := by
  have hnd := (sparse_read_spec s frags sub l).2
  unfold List.Nodup at hnd
  rw [List.pairwise_map] at hnd
  have hsorted : ∀ l', l' = Layout.ROW_MAJOR ∨ l' = Layout.COL_MAJOR →
      ((sparse_merge s (merge_stream sub frags)).insertionSort (cell_le s l')).Pairwise
        (cell_le s l') := fun l' _ =>
    @List.sorted_insertionSort _ (cell_le s l') _
      ⟨fun c d => layout_le_total s l' c.coords d.coords⟩
      ⟨fun c d e => layout_le_trans s l' c.coords d.coords e.coords⟩ _
  cases l
  · exact List.Pairwise.and (hsorted _ (Or.inl rfl)) hnd
  · exact List.Pairwise.and (hsorted _ (Or.inr rfl)) hnd
  · exact sparse_merge_ordered s _
  · exact sparse_merge_ordered s _

/-- The cells of a sparse read of a subarray, after the consolidation of any
run of an array built by accepted writes: the last cells written at the
coordinates of the subarray. -/
theorem mem_sparse_read_written {α : Type} (s : ArraySchema) (ws : List (WriteQuery α))
    (frags : List (Fragment α)) (hw : apply_writes s ws [] = Except.ok frags) (i n : Nat)
    (sub : Option (List (Nat × Nat))) (l : Layout) (x : Cell α) :
    x ∈ sparse_read s (consolidate s i n frags) sub l
      ↔ in_subarray sub x.coords = true ∧ last_writer x.coords (written_cells s ws) = some x := by
  obtain ⟨h1, h2⟩ := apply_writes_from_empty s ws frags hw
  rw [(sparse_read_spec s (consolidate s i n frags) sub l).1 x, last_writer_merge_stream,
    last_writer_consolidate s i n frags s.domain.length (fun _ => h2), h1]
  by_cases hsub : in_subarray sub x.coords = true
  · simp [hsub]
  · simp [hsub]

/-! ## The claims about the merge engine -/

open ConsolidationFx

/-- C1 (dense last-writer-wins): on a dense array, any sequence of accepted
writes (full grid, subarray, or unordered with coordinates) makes fragments with
strictly increasing timestamps, and after the consolidation of any run of
fragments the read of the whole array in global order lists the positions of the
domain in global order, each with the value of the last write that covers it
(empty when no write covers it); and for the three write orders of the test the
`a1` buffer read back after `tiledb_array_consolidate` is the expected grid of
the test. -/
theorem dense_last_writer_wins :
    (∀ (α : Type) (s : ArraySchema) (ws : List (WriteQuery α)) (frags : List (Fragment α)),
      s.dense = true → apply_writes s ws [] = Except.ok frags → ∀ i n : Nat,
      (frags.map fun f => f.timestamp).Pairwise (fun a b => a.2 < b.1) ∧
      read s (consolidate s i n frags) none Layout.GLOBAL_ORDER
        = (positions s Layout.GLOBAL_ORDER (domain_box s)).map fun p =>
            Cell.mk p ((last_writer p (written_cells s ws)).map fun x => x.val)) ∧
    (read_dense (consolidated_array dense_schema
        [write_dense_full, write_dense_subarray, write_dense_unordered])).map
          (Option.map Attrs.a1) = read_dense_full_subarray_unordered_a1.map some ∧
    (read_dense (consolidated_array dense_schema
        [write_dense_subarray, write_dense_full, write_dense_unordered])).map
          (Option.map Attrs.a1) = read_dense_subarray_full_unordered_a1.map some ∧
    (read_dense (consolidated_array dense_schema
        [write_dense_subarray, write_dense_unordered, write_dense_full])).map
          (Option.map Attrs.a1) = read_dense_subarray_unordered_full_a1.map some := by
  refine ⟨?_, ?_, ?_, ?_⟩
  · intro α s ws frags hs hw i n
    obtain ⟨h1, h2⟩ := apply_writes_from_empty s ws frags hw
    have hk : ∀ k, last_writer k (merge_stream none (consolidate s i n frags))
        = last_writer k (written_cells s ws) := fun k => by
      rw [last_writer_consolidate s i n frags s.domain.length (fun _ => h2) k, h1 k]
    refine ⟨?_, ?_⟩
    · rw [apply_writes_timestamps s ws [] frags 0 rfl hw]
      exact timestamps_increasing _
    unfold read dense_read
    rw [if_pos hs, dense_read_box_global]
    apply List.map_congr_left
    intro p _
    rw [hk p]
  · decide
  · decide
  · decide

/-- Witness of C1: the three writes of the first section of the dense test,
all three fragments consolidated. -/
theorem dense_last_writer_wins_witness :
    read dense_schema (consolidate dense_schema 0 3 (written_array dense_schema
        [write_dense_full, write_dense_subarray, write_dense_unordered])) none
        Layout.GLOBAL_ORDER
      = (positions dense_schema Layout.GLOBAL_ORDER (domain_box dense_schema)).map fun p =>
          Cell.mk p ((last_writer p (written_cells dense_schema
            [write_dense_full, write_dense_subarray, write_dense_unordered])).map
              fun x => x.val) :=
  (dense_last_writer_wins.1 Attrs dense_schema
    [write_dense_full, write_dense_subarray, write_dense_unordered] _ rfl rfl 0 3).2

/-- C8 (consolidation preserves reads): for every array, dense or sparse,
built by a sequence of accepted writes (their fragments carry strictly increasing
timestamps), and every run of its fragments, the read of any subarray in any
layout after the consolidation of the run equals the merge read of the original
fragments. -/
theorem consolidation_preserves_reads {α : Type} (s : ArraySchema) (ws : List (WriteQuery α))
    (frags : List (Fragment α)) (hw : apply_writes s ws [] = Except.ok frags) (i n : Nat)
    (sub : Option (List (Nat × Nat))) (l : Layout) :
    (frags.map fun f => f.timestamp).Pairwise (fun a b => a.2 < b.1) ∧
    read s (consolidate s i n frags) sub l = read s frags sub l := by
  obtain ⟨_, h2⟩ := apply_writes_from_empty s ws frags hw
  refine ⟨?_, ?_⟩
  · rw [apply_writes_timestamps s ws [] frags 0 rfl hw]
    exact timestamps_increasing _
  · exact read_congr s _ _
      (fun k => last_writer_consolidate s i n frags s.domain.length (fun _ => h2) k) sub l

/-- Witness of C8: the sparse array of the test after both writes, the whole
array consolidated, read in row-major order. -/
theorem consolidation_preserves_reads_witness :
    read sparse_schema (tiledb_array_consolidate sparse_schema
        (written_array sparse_schema [write_sparse_full, write_sparse_unordered])) none
        Layout.ROW_MAJOR
      = read sparse_schema
          (written_array sparse_schema [write_sparse_full, write_sparse_unordered]) none
          Layout.ROW_MAJOR :=
  (consolidation_preserves_reads sparse_schema [write_sparse_full, write_sparse_unordered] _ rfl
    0 _ none Layout.ROW_MAJOR).2

/-- C2 (sparse dedup): two accepted writes to a sparse array make two fragments
with timestamps 1 and 2; after the consolidation of any run the read in any
layout returns exactly one cell per distinct coordinate: no coordinate twice,
every coordinate of either fragment once, so the cell count is the number of
distinct coordinates across both fragments, and with a coordinate in both
fragments it is smaller than the sum of the input counts.  Every cell of either
fragment whose coordinate no other cell carries is retained, and a coordinate
present in both fragments holds a cell of the second, later-written fragment. -/
theorem sparse_dedup {α : Type} (s : ArraySchema) (w₁ w₂ : WriteQuery α) (c₁ c₂ : List (Cell α))
    (frags : List (Fragment α)) (hs : s.dense = false) (h₁ : query_cells s w₁ = Except.ok c₁)
    (h₂ : query_cells s w₂ = Except.ok c₂)
    (hw : apply_writes s [w₁, w₂] [] = Except.ok frags) (i n : Nat) (l : Layout) :
    frags.map (fun f => f.timestamp) = [(1, 1), (2, 2)] ∧
    read s (consolidate s i n frags) none l
      = (sparse_read s (consolidate s i n frags) none l).map
          (fun c => Cell.mk c.coords (some c.val)) ∧
    ((sparse_read s (consolidate s i n frags) none l).map fun c => c.coords).Nodup ∧
    (∀ k, k ∈ (sparse_read s (consolidate s i n frags) none l).map (fun c => c.coords)
      ↔ k ∈ (c₁ ++ c₂).map (fun c => c.coords)) ∧
    (sparse_read s (consolidate s i n frags) none l).length
      = ((c₁ ++ c₂).map fun c => c.coords).dedup.length ∧
    (sparse_read s (consolidate s i n frags) none l).length ≤ c₁.length + c₂.length ∧
    ((∃ x ∈ c₁, ∃ y ∈ c₂, x.coords = y.coords) →
      (sparse_read s (consolidate s i n frags) none l).length < c₁.length + c₂.length) ∧
    (∀ x ∈ c₁ ++ c₂, (∀ y ∈ c₁ ++ c₂, y.coords = x.coords → y = x) →
      x ∈ sparse_read s (consolidate s i n frags) none l) ∧
    (∀ x ∈ sparse_read s (consolidate s i n frags) none l,
      x.coords ∈ c₁.map (fun c => c.coords) → x.coords ∈ c₂.map (fun c => c.coords) →
      x ∈ c₂) ∧
    (∀ x, x ∈ sparse_read s (consolidate s i n frags) none l
      ↔ (last_writer x.coords c₂ = some x
          ∨ (last_writer x.coords c₂ = none ∧ last_writer x.coords c₁ = some x))) := by
  have hW : written_cells s [w₁, w₂] = c₁ ++ c₂ := by
    rw [written_cells_cons s w₁ [w₂] c₁ h₁, written_cells_cons s w₂ [] c₂ h₂]
    simp [written_cells]
  obtain ⟨hmem, hlen⟩ := sparse_read_written s [w₁, w₂] frags hw i n l
  obtain ⟨_, hnd⟩ := sparse_read_spec s (consolidate s i n frags) none l
  rw [hW] at hmem hlen
  have hmem' : ∀ x, x ∈ sparse_read s (consolidate s i n frags) none l
      ↔ (last_writer x.coords c₂ = some x
          ∨ (last_writer x.coords c₂ = none ∧ last_writer x.coords c₁ = some x)) := fun x => by
    rw [hmem x, last_writer_append]
    cases last_writer x.coords c₂ <;> simp
  have hle : ((c₁ ++ c₂).map fun c => c.coords).dedup.length ≤ c₁.length + c₂.length := by
    have := (List.dedup_sublist ((c₁ ++ c₂).map fun c => c.coords)).length_le
    simpa using this
  refine ⟨?_, ?_, hnd, ?_, hlen, by rw [hlen]; exact hle, ?_, ?_, ?_, hmem'⟩
  · simp only [apply_writes, write, h₁, h₂] at hw
    cases hw
    simp [next_timestamp]
  · unfold read
    simp [hs]
  · intro k
    rw [List.mem_map, List.mem_map]
    constructor
    · rintro ⟨x, hx, rfl⟩
      exact ⟨x, (last_writer_some _ _ x ((hmem x).mp hx)).2, rfl⟩
    · rintro ⟨y, hy, rfl⟩
      cases hlw : last_writer y.coords (c₁ ++ c₂) with
      | none => exact absurd rfl ((last_writer_eq_none _ _).mp hlw y hy)
      | some x =>
        have hx := last_writer_some _ _ x hlw
        exact ⟨x, (hmem x).mpr (by rw [hx.1]; exact hlw), hx.1⟩
  · rintro ⟨x, hx, y, hy, hxy⟩
    rw [hlen]
    have hnn : ¬ ((c₁ ++ c₂).map fun c => c.coords).Nodup := by
      rw [List.map_append, List.nodup_append]
      rintro ⟨_, _, hdis⟩
      exact hdis (List.mem_map_of_mem _ hx) (hxy ▸ List.mem_map_of_mem _ hy)
    have := dedup_length_lt _ hnn
    simpa using this
  · intro x hx huniq
    rw [hmem x]
    cases hlw : last_writer x.coords (c₁ ++ c₂) with
    | none => exact absurd rfl ((last_writer_eq_none _ _).mp hlw x hx)
    | some z =>
      have hz := last_writer_some _ _ z hlw
      rw [huniq z hz.2 hz.1]
  · intro x hx _ hk₂
    rcases (hmem' x).mp hx with h | ⟨h, _⟩
    · exact (last_writer_some _ _ x h).2
    · rw [List.mem_map] at hk₂
      obtain ⟨y, hy, hyx⟩ := hk₂
      exact absurd hyx ((last_writer_eq_none _ _).mp h y hy)

/-- Witness of C2: the two writes of the sparse test, eight and four cells,
with the coordinates (3, 3) and (3, 4) in both; fewer cells are read back than
were written. -/
theorem sparse_dedup_witness :
    (sparse_read sparse_schema (consolidate sparse_schema 0 2
        (written_array sparse_schema [write_sparse_full, write_sparse_unordered])) none
        Layout.GLOBAL_ORDER).length
      < (List.zipWith Cell.mk (chunks 2 8 [1, 1, 1, 2, 1, 4, 2, 3, 3, 1, 4, 2, 3, 3, 3, 4])
            write_sparse_full.values).length
        + (List.zipWith Cell.mk (chunks 2 4 [3, 4, 3, 2, 3, 3, 4, 1])
            write_sparse_unordered.values).length :=
  (sparse_dedup sparse_schema write_sparse_full write_sparse_unordered _ _ _ rfl rfl rfl rfl 0 2
    Layout.GLOBAL_ORDER).2.2.2.2.2.2.1 (by decide)

theorem lex_le_append (a a' b b' : List Nat) (h : a.length = a'.length)
    (hle : lex_le (a ++ b) (a' ++ b') = true) :
    lex_le a a' = true ∧ (a = a' → lex_le b b' = true) := by
  induction a generalizing a' with
  | nil =>
    cases a' with
    | nil => exact ⟨rfl, fun _ => hle⟩
    | cons y ys => simp at h
  | cons x xs ih =>
    cases a' with
    | nil => simp at h
    | cons y ys =>
      rw [List.cons_append, List.cons_append, lex_le_cons_cons] at hle
      rw [lex_le_cons_cons]
      rcases hle with hlt | ⟨heq, hrest⟩
      · exact ⟨Or.inl hlt, fun he => by cases he; omega⟩
      · obtain ⟨h1, h2⟩ := ih ys (by simpa using h) hrest
        exact ⟨Or.inr ⟨heq, h1⟩, fun he => h2 (List.cons.inj he).2⟩

/-- In the global order a cell comes before another when its tile comes first
in tile order, or when both lie in one tile and it comes first in cell order. -/
theorem global_le_tile_then_cell (s : ArraySchema) (c d : List Nat)
    (hlen : c.length = d.length)
    (hle : layout_le s Layout.GLOBAL_ORDER c d = true) :
    lex_le (orient s.tile_order (tile_coords s c)) (orient s.tile_order (tile_coords s d)) = true ∧
    (tile_coords s c = tile_coords s d →
      lex_le (orient s.cell_order c) (orient s.cell_order d) = true) := by
  have hl : (orient s.tile_order (tile_coords s c)).length
      = (orient s.tile_order (tile_coords s d)).length := by
    simp only [orient_length, tile_coords, List.length_zipWith, hlen]
  obtain ⟨h1, h2⟩ := lex_le_append _ _ _ _ hl hle
  exact ⟨h1, fun he => h2 (by rw [he])⟩

/-- C7 (global-order output): on a sparse array, after any sequence of accepted
writes in any order (unordered writes included) and the consolidation of any run,
the read in global order returns exactly the surviving cells (the last cell
written at each coordinate), strictly increasing in the global order: by tile in
tile order and, inside a tile, by cell order; the coordinates buffer and every
attribute buffer list the cells in that one order.  For both write orders of the
sparse test the buffers read back are the expected buffers of the test. -/
theorem global_order_output :
    (∀ (α : Type) (s : ArraySchema) (ws : List (WriteQuery α)) (frags : List (Fragment α)),
      s.dense = false → apply_writes s ws [] = Except.ok frags → ∀ i n : Nat,
      strictly_ordered s Layout.GLOBAL_ORDER
        (sparse_read s (consolidate s i n frags) none Layout.GLOBAL_ORDER) ∧
      (sparse_read s (consolidate s i n frags) none Layout.GLOBAL_ORDER).Pairwise (fun a b =>
        lex_le (orient s.tile_order (tile_coords s a.coords))
          (orient s.tile_order (tile_coords s b.coords)) = true ∧
        (tile_coords s a.coords = tile_coords s b.coords →
          lex_le (orient s.cell_order a.coords) (orient s.cell_order b.coords) = true ∧
          a.coords ≠ b.coords)) ∧
      (∀ x, x ∈ sparse_read s (consolidate s i n frags) none Layout.GLOBAL_ORDER
        ↔ last_writer x.coords (written_cells s ws) = some x) ∧
      read s (consolidate s i n frags) none Layout.GLOBAL_ORDER
        = (sparse_read s (consolidate s i n frags) none Layout.GLOBAL_ORDER).map
            (fun c => Cell.mk c.coords (some c.val)) ∧
      coords_buffer (sparse_read s (consolidate s i n frags) none Layout.GLOBAL_ORDER)
        = ((sparse_read s (consolidate s i n frags) none Layout.GLOBAL_ORDER).map
            fun c => c.coords).flatten ∧
      (∀ (β : Type) (f : α → β),
        attr_buffer f (sparse_read s (consolidate s i n frags) none Layout.GLOBAL_ORDER)
          = (sparse_read s (consolidate s i n frags) none Layout.GLOBAL_ORDER).map
              fun c => f c.val)) ∧
    (coords_buffer (read_sparse (consolidated_array sparse_schema
        [write_sparse_full, write_sparse_unordered])) = read_sparse_full_unordered_coords ∧
     attr_buffer Attrs.a1 (read_sparse (consolidated_array sparse_schema
        [write_sparse_full, write_sparse_unordered])) = read_sparse_full_unordered_a1 ∧
     (var_offsets (attr_buffer Attrs.a2 (read_sparse (consolidated_array sparse_schema
        [write_sparse_full, write_sparse_unordered]))),
      var_data (attr_buffer Attrs.a2 (read_sparse (consolidated_array sparse_schema
        [write_sparse_full, write_sparse_unordered])))) = read_sparse_full_unordered_a2) ∧
    (coords_buffer (read_sparse (consolidated_array sparse_schema
        [write_sparse_unordered, write_sparse_full])) = read_sparse_unordered_full_coords ∧
     attr_buffer Attrs.a1 (read_sparse (consolidated_array sparse_schema
        [write_sparse_unordered, write_sparse_full])) = read_sparse_unordered_full_a1 ∧
     (var_offsets (attr_buffer Attrs.a2 (read_sparse (consolidated_array sparse_schema
        [write_sparse_unordered, write_sparse_full]))),
      var_data (attr_buffer Attrs.a2 (read_sparse (consolidated_array sparse_schema
        [write_sparse_unordered, write_sparse_full])))) = read_sparse_unordered_full_a2) := by
  refine ⟨?_, ⟨by decide, by decide, by decide⟩, ⟨by decide, by decide, by decide⟩⟩
  intro α s ws frags hs hw i n
  obtain ⟨h1, h2⟩ := apply_writes_from_empty s ws frags hw
  have hord : strictly_ordered s Layout.GLOBAL_ORDER
      (sparse_read s (consolidate s i n frags) none Layout.GLOBAL_ORDER) :=
    sparse_merge_ordered s _
  have hmem := (sparse_read_written s ws frags hw i n Layout.GLOBAL_ORDER).1
  have harity : ∀ x ∈ sparse_read s (consolidate s i n frags) none Layout.GLOBAL_ORDER,
      x.coords.length = s.domain.length := fun x hx => by
    have hx' := (hmem x).mp hx
    rw [← h1] at hx'
    exact h2 x (last_writer_some _ _ x hx').2
  refine ⟨hord, ?_, hmem, ?_, rfl, fun _ _ => rfl⟩
  · unfold strictly_ordered at hord
    refine List.Pairwise.imp_of_mem ?_ hord
    intro a b ha hb hab
    obtain ⟨t1, t2⟩ := global_le_tile_then_cell s a.coords b.coords
      (by rw [harity a ha, harity b hb]) hab.1
    exact ⟨t1, fun he => ⟨t2 he, hab.2⟩⟩
  · unfold read
    simp [hs]

/-- Witness of C7: the sparse test, unordered write first. -/
theorem global_order_output_witness :
    strictly_ordered sparse_schema Layout.GLOBAL_ORDER
      (sparse_read sparse_schema (consolidate sparse_schema 0 2
        (written_array sparse_schema [write_sparse_unordered, write_sparse_full])) none
        Layout.GLOBAL_ORDER) :=
  (global_order_output.1 Attrs sparse_schema [write_sparse_unordered, write_sparse_full] _
    rfl rfl 0 2).1

/-- C3, as stated, fails: the fragment of `write_two_cells` has offsets 0, 1;
`write_overwrite_last` overwrites its last cell "b" with the longer "cc"; the
offsets of the consolidated read are again 0, 1, those of the first input
fragment. -/
theorem offsets_can_equal_input_offsets :
    attr_buffer Attrs.a2 (read_sparse (consolidated_array sparse_schema
        [write_two_cells, write_overwrite_last])) = ["a".toList, "cc".toList] ∧
    (written_array sparse_schema [write_two_cells, write_overwrite_last]).map
        (fun f => attr_buffer Attrs.a2 f.cells) = [["a".toList, "b".toList], ["cc".toList]] ∧
    var_offsets (attr_buffer Attrs.a2 (read_sparse (consolidated_array sparse_schema
        [write_two_cells, write_overwrite_last]))) = [0, 1] ∧
    (written_array sparse_schema [write_two_cells, write_overwrite_last]).map
        (fun f => var_offsets (attr_buffer Attrs.a2 f.cells)) = [[0, 1], [0]] := by
  decide

/-- C3, amended (variable-length offsets are rebuilt): for every array, dense
or sparse, built by accepted writes, every consolidated run, every subarray,
layout and variable-length attribute `g`, the read result holds the winning
values in output order (sparse: exactly the last cells written at the
coordinates of the subarray, strictly increasing in the order of the layout;
dense: the positions of the region in the order of the layout, each with its
last written value), its offsets buffer has one offset per cell, offset `k` is
the sum of the byte lengths of the values before cell `k` (the first offset is 0,
offset `k+1` is offset `k` plus the length of value `k`), the data buffer is the
concatenation of the values in that order, and decoding the two buffers gives
back every winning value.  The offsets equal those of an input fragment exactly
when the fragment has as many cells as the result and the same value length at
every cell but the last.  Where "bbb" overwrites the middle value "b" of three,
the result has as many cells as the first fragment and its offsets 0, 1, 4 are
those of neither fragment; the same holds in the sparse test. -/
theorem var_offsets_rebuilt :
    (∀ (α β : Type) (s : ArraySchema) (ws : List (WriteQuery α)) (frags : List (Fragment α)),
      apply_writes s ws [] = Except.ok frags →
      ∀ (i n : Nat) (sub : Option (List (Nat × Nat))) (l : Layout) (g : α → List β),
      (s.dense = false →
        read s (consolidate s i n frags) sub l
          = (sparse_read s (consolidate s i n frags) sub l).map
              (fun c => Cell.mk c.coords (some c.val)) ∧
        var_values g (read s (consolidate s i n frags) sub l)
          = attr_buffer g (sparse_read s (consolidate s i n frags) sub l)) ∧
      (∀ x, x ∈ sparse_read s (consolidate s i n frags) sub l
        ↔ in_subarray sub x.coords = true
          ∧ last_writer x.coords (written_cells s ws) = some x) ∧
      strictly_ordered s l (sparse_read s (consolidate s i n frags) sub l) ∧
      (s.dense = true →
        read s (consolidate s i n frags) sub l
          = (positions s l (sub.getD (domain_box s))).map fun p =>
              Cell.mk p ((last_writer p (written_cells s ws)).map fun x => x.val)) ∧
      (var_offsets (var_values g (read s (consolidate s i n frags) sub l))).length
        = (read s (consolidate s i n frags) sub l).length ∧
      (∀ k, k < (read s (consolidate s i n frags) sub l).length →
        (var_offsets (var_values g (read s (consolidate s i n frags) sub l)))[k]?
          = some (((var_values g (read s (consolidate s i n frags) sub l)).take k).map
              List.length).sum) ∧
      (read s (consolidate s i n frags) sub l ≠ [] →
        (var_offsets (var_values g (read s (consolidate s i n frags) sub l)))[0]? = some 0) ∧
      (∀ k, k + 1 < (read s (consolidate s i n frags) sub l).length →
        (var_offsets (var_values g (read s (consolidate s i n frags) sub l))).getD (k + 1) 0
          = (var_offsets (var_values g (read s (consolidate s i n frags) sub l))).getD k 0
            + ((var_values g (read s (consolidate s i n frags) sub l)).getD k []).length) ∧
      var_data (var_values g (read s (consolidate s i n frags) sub l))
        = ((read s (consolidate s i n frags) sub l).map
            fun c => (c.val.map g).getD []).flatten ∧
      split_var (var_offsets (var_values g (read s (consolidate s i n frags) sub l)))
          (var_data (var_values g (read s (consolidate s i n frags) sub l)))
        = var_values g (read s (consolidate s i n frags) sub l) ∧
      (∀ f ∈ frags,
        (var_offsets (var_values g (read s (consolidate s i n frags) sub l))
            = var_offsets (attr_buffer g f.cells)
          ↔ (read s (consolidate s i n frags) sub l).length = f.cells.length
            ∧ ((var_values g (read s (consolidate s i n frags) sub l)).map List.length).dropLast
              = ((attr_buffer g f.cells).map List.length).dropLast))) ∧
    (var_values Attrs.a2 (read sparse_schema (consolidated_array sparse_schema
        [write_three_cells, write_overwrite_middle]) none Layout.GLOBAL_ORDER)
      = ["a".toList, "bbb".toList, "c".toList] ∧
     (written_array sparse_schema [write_three_cells, write_overwrite_middle]).map
        (fun f => attr_buffer Attrs.a2 f.cells)
      = [["a".toList, "b".toList, "c".toList], ["bbb".toList]] ∧
     var_offsets (var_values Attrs.a2 (read sparse_schema (consolidated_array sparse_schema
        [write_three_cells, write_overwrite_middle]) none Layout.GLOBAL_ORDER)) = [0, 1, 4] ∧
     (written_array sparse_schema [write_three_cells, write_overwrite_middle]).map
        (fun f => var_offsets (attr_buffer Attrs.a2 f.cells)) = [[0, 1, 2], [0]]) ∧
    (∀ f ∈ written_array sparse_schema [write_sparse_full, write_sparse_unordered],
      var_offsets (var_values Attrs.a2 (read sparse_schema (consolidated_array sparse_schema
        [write_sparse_full, write_sparse_unordered]) none Layout.GLOBAL_ORDER))
        ≠ var_offsets (attr_buffer Attrs.a2 f.cells)) := by
  refine ⟨?_, by decide, by decide⟩
  intro α β s ws frags hw i n sub l g
  obtain ⟨h1, h2⟩ := apply_writes_from_empty s ws frags hw
  have hk : ∀ k, last_writer k (merge_stream none (consolidate s i n frags))
      = last_writer k (written_cells s ws) := fun k => by
    rw [last_writer_consolidate s i n frags s.domain.length (fun _ => h2) k, h1 k]
  obtain ⟨b1, b2, b3, b4, b5⟩ :=
    var_buffers_spec (var_values g (read s (consolidate s i n frags) sub l))
  have hlen : (var_values g (read s (consolidate s i n frags) sub l)).length
      = (read s (consolidate s i n frags) sub l).length := by simp [var_values]
  rw [hlen] at b1 b2 b4
  refine ⟨?_, mem_sparse_read_written s ws frags hw i n sub l, sparse_read_ordered s _ sub l,
    ?_, b1, b2, ?_, b4, rfl, b5, ?_⟩
  · intro hs
    have hread : read s (consolidate s i n frags) sub l
        = (sparse_read s (consolidate s i n frags) sub l).map
            (fun c => Cell.mk c.coords (some c.val)) := by
      unfold read
      simp [hs]
    refine ⟨hread, ?_⟩
    rw [hread]
    simp [var_values, attr_buffer]
  · intro hs
    unfold read dense_read
    rw [if_pos hs, dense_read_box_eq]
    apply List.map_congr_left
    intro p _
    rw [hk p]
  · intro hne
    apply b3
    intro hnil
    apply hne
    have := congrArg List.length hnil
    rw [hlen] at this
    exact List.length_eq_zero.mp this
  · intro f _
    rw [var_offsets, var_offsets, rebuild_offsets_eq_iff, hlen]
    simp [attr_buffer]

/-- Witness of C3: "bbb" overwrites the middle value "b" of the three cells
"a", "b", "c"; the result has three cells as the first fragment has, and its
offsets are not those of the first fragment, whose second value is shorter. -/
theorem var_offsets_rebuilt_witness :
    var_offsets (var_values Attrs.a2 (read sparse_schema (consolidate sparse_schema 0 2
        (written_array sparse_schema [write_three_cells, write_overwrite_middle])) none
        Layout.GLOBAL_ORDER))
      ≠ var_offsets (attr_buffer Attrs.a2
          [Cell.mk [1, 1] (Attrs.mk 1 "a".toList), Cell.mk [1, 2] (Attrs.mk 2 "b".toList),
            Cell.mk [1, 4] (Attrs.mk 3 "c".toList)]) :=
  fun h => absurd
    (((var_offsets_rebuilt.1 Attrs Char sparse_schema [write_three_cells, write_overwrite_middle]
      (written_array sparse_schema [write_three_cells, write_overwrite_middle]) rfl 0 2 none
      Layout.GLOBAL_ORDER Attrs.a2).2.2.2.2.2.2.2.2.2.2
        (Fragment.mk (1, 1) [Cell.mk [1, 1] (Attrs.mk 1 "a".toList),
          Cell.mk [1, 2] (Attrs.mk 2 "b".toList), Cell.mk [1, 4] (Attrs.mk 3 "c".toList)])
        (List.Mem.head _)).mp h).2
    (by decide)
/-- The offsets and data buffers of `a2` read back by the three dense tests
are the expected buffers of the test. -/
theorem dense_test_var_buffers :
    (var_offsets (dense_a2 (read_dense (consolidated_array dense_schema
        [write_dense_full, write_dense_subarray, write_dense_unordered]))),
     var_data (dense_a2 (read_dense (consolidated_array dense_schema
        [write_dense_full, write_dense_subarray, write_dense_unordered]))))
      = read_dense_full_subarray_unordered_a2 ∧
    (var_offsets (dense_a2 (read_dense (consolidated_array dense_schema
        [write_dense_subarray, write_dense_full, write_dense_unordered]))),
     var_data (dense_a2 (read_dense (consolidated_array dense_schema
        [write_dense_subarray, write_dense_full, write_dense_unordered]))))
      = read_dense_subarray_full_unordered_a2 ∧
    (var_offsets (dense_a2 (read_dense (consolidated_array dense_schema
        [write_dense_subarray, write_dense_unordered, write_dense_full]))),
     var_data (dense_a2 (read_dense (consolidated_array dense_schema
        [write_dense_subarray, write_dense_unordered, write_dense_full]))))
      = read_dense_subarray_unordered_full_a2 := by
  refine ⟨?_, ?_, ?_⟩ <;> decide

/-! ## Further theorems about `ValidityVector` -/

namespace ValidityVector

theorem memcpy_of_holds (dest src : Ptr) (n : Nat) (hd : holds dest n = true)
    (hs : holds src n = true) : ∃ d, memcpy dest src n = some d := by
  unfold memcpy
  by_cases h0 : n = 0
  · exact ⟨dest, by rw [if_pos h0]⟩
  · rw [if_neg h0]
    rcases dest with _ | d | _ <;> rcases src with _ | s | _ <;>
      simp [holds, h0] at hd hs
    exact ⟨Ptr.block (s.take n ++ d.drop n), by simp [hd, hs]⟩

theorem memcpy_of_not_holds (dest src : Ptr) (n : Nat)
    (h : ¬ (holds dest n = true ∧ holds src n = true)) : memcpy dest src n = none := by
  unfold memcpy
  by_cases h0 : n = 0
  · exact absurd ⟨by simp [holds, h0], by simp [holds, h0]⟩ h
  · rw [if_neg h0]
    rcases dest with _ | d | _ <;> rcases src with _ | s | _ <;> simp [holds, h0] at h ⊢
    exact h

theorem memcpy_zero (dest src : Ptr) : memcpy dest src 0 = some dest := by
  simp [memcpy]

/-- What a returning `get_bytemap` has done: the status is Ok, the vector is as
it was, the destination is non-null and holds the result of the copy. -/
theorem get_bytemap_returned (v w : ValidityVector) (dest d : Ptr) (st : Status)
    (h : v.get_bytemap dest = Outcome.returned (st, w, d)) :
    st = Status.Ok ∧ w = v ∧ dest ≠ Ptr.null ∧ memcpy dest v.buffer_ v.buffer_size_ = some d := by
  unfold get_bytemap at h
  by_cases hd : dest = Ptr.null
  · rw [if_pos hd] at h; cases h
  · rw [if_neg hd] at h
    cases hm : memcpy dest v.buffer_ v.buffer_size_ with
    | none => rw [hm] at h; cases h
    | some d' =>
      rw [hm] at h
      simp only [Outcome.returned.injEq, Prod.mk.injEq] at h
      obtain ⟨h1, h2, h3⟩ := h
      exact ⟨h1.symm, h2.symm, hd, by rw [h3]⟩

/-- A copy of `n > 0` bytes into a block of exactly `n` bytes leaves a block of
exactly `n` bytes. -/
theorem memcpy_exact (d : List Nat) (src b' : Ptr) (n : Nat) (hn : n ≠ 0) (hd : d.length = n)
    (h : memcpy (Ptr.block d) src n = some b') : ∃ b, b' = Ptr.block b ∧ b.length = n := by
  unfold memcpy at h
  rw [if_neg hn] at h
  rcases src with _ | s | _
  · simp at h
  · simp only at h
    split_ifs at h with hle
    cases h
    exact ⟨_, rfl, by simp; omega⟩
  · simp at h

/-- What a returning `set_bytemap` has done: the status is Ok and the size is as
it was; an empty vector is untouched, and a vector of size greater than zero
holds a block of exactly `size()` bytes. -/
theorem set_bytemap_returned (v w : ValidityVector) (env : Alloc) (arg : Ptr) (st : Status)
    (h : v.set_bytemap env arg = Outcome.returned (st, w)) :
    st = Status.Ok ∧ w.buffer_size_ = v.buffer_size_ ∧ (v.buffer_size_ = 0 → w = v) ∧
    (0 < v.buffer_size_ → ∃ b, w.buffer_ = Ptr.block b ∧ b.length = v.buffer_size_) := by
  unfold set_bytemap at h
  by_cases h0 : v.buffer_size_ = 0
  · rw [if_pos h0] at h
    cases h
    exact ⟨rfl, rfl, fun _ => rfl, fun hpos => by omega⟩
  · rw [if_neg h0] at h
    simp only at h
    have hr : ∀ r, (if v.buffer_ = Ptr.null then some (malloc env v.buffer_size_)
        else realloc env v.buffer_ v.buffer_size_) = some r →
        r = Ptr.null ∨ ∃ d, r = Ptr.block d ∧ d.length = v.buffer_size_ := by
      intro r hr
      cases env with
      | none =>
        split_ifs at hr <;> simp [malloc, realloc] at hr <;> exact Or.inl hr.symm
      | some f =>
        split_ifs at hr with hb
        · simp only [malloc, Option.some.injEq] at hr
          exact Or.inr ⟨_, hr.symm, by simp⟩
        · rcases hbuf : v.buffer_ with _ | old | _
          · exact absurd hbuf hb
          · rw [hbuf] at hr
            simp only [realloc, Option.some.injEq] at hr
            exact Or.inr ⟨_, hr.symm, by simp⟩
          · rw [hbuf] at hr
            simp [realloc] at hr
    generalize (if v.buffer_ = Ptr.null then some (malloc env v.buffer_size_)
      else realloc env v.buffer_ v.buffer_size_) = r at h hr
    rcases r with _ | r
    · cases h
    · rcases hr r rfl with rfl | ⟨d, rfl, hd⟩
      · cases h
      · simp only at h
        cases hm : memcpy (Ptr.block d) arg v.buffer_size_ with
        | none => rw [hm] at h; cases h
        | some b' =>
          rw [hm] at h
          simp only [Outcome.returned.injEq, Prod.mk.injEq] at h
          obtain ⟨h1, h2⟩ := h
          subst h2
          exact ⟨h1.symm, rfl, fun hz => absurd hz h0,
            fun _ => memcpy_exact d arg b' v.buffer_size_ h0 hd hm⟩

/-- One returning call keeps the size, and keeps the buffer when it is a
`get_bytemap` or the vector is empty. -/
theorem apply_call_returned (v w : ValidityVector) (c : Call)
    (h : v.apply_call c = Outcome.returned w) :
    w.buffer_size_ = v.buffer_size_ ∧
    (w = v ∨ (0 < v.buffer_size_ ∧ ∃ b, w.buffer_ = Ptr.block b ∧ b.length = v.buffer_size_)) := by
  cases c with
  | set env arg =>
    simp only [apply_call] at h
    cases hs : v.set_bytemap env arg with
    | returned r =>
      obtain ⟨st, w'⟩ := r
      rw [hs] at h
      simp only [Outcome.returned.injEq] at h
      subst h
      obtain ⟨_, h2, h3, h4⟩ := set_bytemap_returned v w' env arg st hs
      refine ⟨h2, ?_⟩
      by_cases h0 : v.buffer_size_ = 0
      · exact Or.inl (h3 h0)
      · exact Or.inr ⟨Nat.pos_of_ne_zero h0, h4 (Nat.pos_of_ne_zero h0)⟩
    | fatal msg => rw [hs] at h; cases h
    | undefined => rw [hs] at h; cases h
  | get dest =>
    simp only [apply_call] at h
    cases hg : v.get_bytemap dest with
    | returned r =>
      obtain ⟨st, w', d⟩ := r
      rw [hg] at h
      simp only [Outcome.returned.injEq] at h
      subst h
      obtain ⟨_, h2, _, _⟩ := get_bytemap_returned v w' dest d st hg
      exact ⟨by rw [h2], Or.inl h2⟩
    | fatal msg => rw [hg] at h; cases h
    | undefined => rw [hg] at h; cases h

theorem apply_calls_cons (v w : ValidityVector) (c : Call) (cs : List Call)
    (h : v.apply_calls (c :: cs) = Outcome.returned w) :
    ∃ u, v.apply_call c = Outcome.returned u ∧ u.apply_calls cs = Outcome.returned w := by
  unfold apply_calls at h
  cases hc : v.apply_call c with
  | returned u => rw [hc] at h; exact ⟨u, rfl, h⟩
  | fatal msg => rw [hc] at h; cases h
  | undefined => rw [hc] at h; cases h

/-- A returning sequence of calls keeps the size. -/
theorem apply_calls_size (v w : ValidityVector) (cs : List Call)
    (h : v.apply_calls cs = Outcome.returned w) : w.buffer_size_ = v.buffer_size_ := by
  induction cs generalizing v with
  | nil => simp only [apply_calls, Outcome.returned.injEq] at h; rw [h]
  | cons c cs ih =>
    obtain ⟨u, hu, hw⟩ := apply_calls_cons v w c cs h
    rw [ih u hw, (apply_call_returned v u c hu).1]

/-- A returning sequence of calls keeps the buffer null or a block of exactly
`size()` bytes, when it was so before. -/
theorem apply_calls_buffer_fits (v w : ValidityVector) (cs : List Call)
    (hv : v.buffer_fits = true) (h : v.apply_calls cs = Outcome.returned w) :
    w.buffer_fits = true := by
  induction cs generalizing v with
  | nil => simp only [apply_calls, Outcome.returned.injEq] at h; rw [← h]; exact hv
  | cons c cs ih =>
    obtain ⟨u, hu, hw⟩ := apply_calls_cons v w c cs h
    apply ih u _ hw
    obtain ⟨hsz, hbuf⟩ := apply_call_returned v u c hu
    rcases hbuf with rfl | ⟨_, b, hb, hlen⟩
    · exact hv
    · simp [buffer_fits, hb, hlen, hsz]

/-- The default constructor and the value constructor with a size greater than
zero leave the buffer null or a block of exactly `size()` bytes, every returning
sequence of calls keeps it so, and a returning `set_bytemap` on a vector of size
greater than zero leaves a block of exactly `size()` bytes. -/
theorem buffer_fits_of_calls (env : Alloc) (garbage : Ptr) (n : Nat) (v₀ w : ValidityVector)
    (cs : List Call) (hn : 0 < n) (h₀ : ctor_size env garbage n = Outcome.returned v₀)
    (h : v₀.apply_calls cs = Outcome.returned w) :
    w.buffer_fits = true ∧
    (∀ u, ctor_default.apply_calls cs = Outcome.returned u → u.buffer_fits = true) ∧
    (∀ (u u' : ValidityVector) (env' : Alloc) (arg : Ptr) (st : Status), 0 < u.size →
      u.set_bytemap env' arg = Outcome.returned (st, u') →
      ∃ b, u'.buffer_ = Ptr.block b ∧ b.length = u'.size) := by
  refine ⟨?_, ?_, ?_⟩
  · apply apply_calls_buffer_fits v₀ w cs _ h
    cases env with
    | none => simp [ctor_size, malloc, hn, LOG_FATAL] at h₀
    | some f =>
      rw [ctor_size_block f garbage n hn] at h₀
      cases h₀
      simp [buffer_fits]
  · intro u hu
    exact apply_calls_buffer_fits ctor_default u cs rfl hu
  · intro u u' env' arg st hpos hs
    obtain ⟨_, h2, _, h4⟩ := set_bytemap_returned u u' env' arg st hs
    obtain ⟨b, hb, hlen⟩ := h4 hpos
    exact ⟨b, hb, by rw [hlen]; exact h2.symm⟩

end ValidityVector

/-! ## The claims about calls on a `ValidityVector` -/

namespace ValidityVector

/-- C11 (buffer-length invariant), at the input where the code breaks it: the
value constructor called with size 0 returns without assigning `buffer_`; with
an invalid pointer found in the member, the buffer is neither null nor a block of
`size()` bytes, and it stays so after a `set_bytemap` and a `get_bytemap` that
return. -/
theorem buffer_unfit_after_value_ctor_zero :
    ctor_size (some fun _ => 0) Ptr.wild 0
        = Outcome.returned (ValidityVector.mk Ptr.wild 0) ∧
    (ValidityVector.mk Ptr.wild 0).buffer_fits = false ∧
    (ValidityVector.mk Ptr.wild 0).apply_calls
        [Call.set (some fun _ => 0) (Ptr.block [1]), Call.get (Ptr.block [0])]
      = Outcome.returned (ValidityVector.mk Ptr.wild 0) := by
  refine ⟨?_, ?_, ?_⟩ <;> decide

/-- C12 (get_bytemap fails exactly on a null destination): in every state
`get_bytemap` ends in `LOG_FATAL` if and only if the destination is null.  For a
non-null destination it returns Ok with the vector as it was, whenever the copy
of `size()` bytes stays inside the destination and the buffer; on a vector of
size 0 it returns Ok for every non-null destination and writes nothing; a copy
that leaves a block is undefined behaviour; no returned status is other than
Ok. -/
theorem get_bytemap_fatal_iff_null (v : ValidityVector) (dest : Ptr) :
    ((∃ msg, v.get_bytemap dest = Outcome.fatal msg) ↔ dest = Ptr.null) ∧
    (dest ≠ Ptr.null → holds dest v.size = true → holds v.buffer_ v.size = true →
      ∃ d, v.get_bytemap dest = Outcome.returned (Status.Ok, v, d)) ∧
    (dest ≠ Ptr.null → v.size = 0 →
      v.get_bytemap dest = Outcome.returned (Status.Ok, v, dest)) ∧
    (dest ≠ Ptr.null → ¬ (holds dest v.size = true ∧ holds v.buffer_ v.size = true) →
      v.get_bytemap dest = Outcome.undefined) ∧
    (∀ st w d, v.get_bytemap dest = Outcome.returned (st, w, d) → st = Status.Ok) := by
  refine ⟨⟨?_, ?_⟩, ?_, ?_, ?_, ?_⟩
  · rintro ⟨msg, h⟩
    by_contra hd
    unfold get_bytemap at h
    rw [if_neg hd] at h
    split at h <;> cases h
  · intro hd
    exact ⟨"Unable to get ValidityVector; validity_vector is empty", by
      simp [get_bytemap, hd, LOG_FATAL]⟩
  · intro hd h1 h2
    obtain ⟨d, hm⟩ := memcpy_of_holds dest v.buffer_ v.buffer_size_ h1 h2
    exact ⟨d, by unfold get_bytemap; rw [if_neg hd, hm]⟩
  · intro hd h0
    unfold get_bytemap
    have h0' : v.buffer_size_ = 0 := h0
    rw [if_neg hd, h0', memcpy_zero]
  · intro hd hn
    unfold get_bytemap
    rw [if_neg hd, memcpy_of_not_holds dest v.buffer_ v.buffer_size_ hn]
  · intro st w d h
    exact (get_bytemap_returned v w dest d st h).1

/-- Witness of C12: a vector of size 2 and a destination of 3 bytes. -/
theorem get_bytemap_fatal_iff_null_witness :
    ∃ d, (ValidityVector.mk (Ptr.block [7, 0]) 2).get_bytemap (Ptr.block [1, 1, 1])
      = Outcome.returned (Status.Ok, ValidityVector.mk (Ptr.block [7, 0]) 2, d) :=
  (get_bytemap_fatal_iff_null (ValidityVector.mk (Ptr.block [7, 0]) 2)
    (Ptr.block [1, 1, 1])).2.1 (by decide) (by decide) (by decide)

/-- C13 (value constructor with size 0), at the input where the code breaks it:
the value constructor called with size 0 sets the size to 0 and returns without
assigning `buffer_`; with an invalid pointer found in the member, the vector is
not in the state of a default-constructed one, whose buffer is null. -/
theorem value_ctor_zero_differs_from_default :
    ctor_size (some fun _ => 0) Ptr.wild 0
        = Outcome.returned (ValidityVector.mk Ptr.wild 0) ∧
    (ValidityVector.mk Ptr.wild 0).size = 0 ∧
    (ValidityVector.mk Ptr.wild 0).buffer ≠ Ptr.null ∧
    ValidityVector.mk Ptr.wild 0 ≠ ctor_default ∧
    ctor_default = ValidityVector.mk Ptr.null 0 := by
  refine ⟨?_, ?_, ?_, ?_, ?_⟩ <;> decide

/-- The value constructor with size 0 returns the size 0 and, as the buffer,
whatever the member held; the state is that of the default constructor exactly
when that was the null pointer. -/
theorem ctor_size_zero (env : Alloc) (garbage : Ptr) :
    ctor_size env garbage 0 = Outcome.returned (ValidityVector.mk garbage 0) ∧
    (ValidityVector.mk garbage 0 = ctor_default ↔ garbage = Ptr.null) := by
  constructor
  · simp [ctor_size]
  · simp [ctor_default]

/-- C14 (set_bytemap on an empty vector): on a vector of size 0, whatever its
buffer, `set_bytemap` returns Ok and the vector as it was, for every answer of
the allocator (a failing one included: no allocation is requested) and every
argument (the null pointer and an invalid pointer included: it is not read). -/
theorem set_bytemap_empty (v : ValidityVector) (env : Alloc) (arg : Ptr) (h : v.size = 0) :
    v.set_bytemap env arg = Outcome.returned (Status.Ok, v) ∧
    v.set_bytemap none Ptr.null = Outcome.returned (Status.Ok, v) ∧
    v.set_bytemap none Ptr.wild = Outcome.returned (Status.Ok, v) ∧
    (∀ st w, v.set_bytemap env arg = Outcome.returned (st, w) →
      st = Status.Ok ∧ w.buffer = v.buffer ∧ w.size = v.size) := by
  have h' : v.buffer_size_ = 0 := h
  have hall : ∀ e a, v.set_bytemap e a = Outcome.returned (Status.Ok, v) := fun e a => by
    unfold set_bytemap
    rw [if_pos h']
  refine ⟨hall env arg, hall none Ptr.null, hall none Ptr.wild, ?_⟩
  intro st w hs
  rw [hall env arg] at hs
  simp only [Outcome.returned.injEq, Prod.mk.injEq] at hs
  obtain ⟨h1, h2⟩ := hs
  subst h1 h2
  exact ⟨rfl, rfl, rfl⟩

/-- Witness of C14: the default-constructed vector, a failing allocator and a
null argument. -/
theorem set_bytemap_empty_witness :
    ctor_default.set_bytemap none Ptr.null = Outcome.returned (Status.Ok, ctor_default) :=
  (set_bytemap_empty ctor_default none Ptr.null rfl).1

/-- C15 (set_bytemap never changes the size): after every sequence of
`set_bytemap` and `get_bytemap` calls that return, the size is the size before
the sequence: the size given to the value constructor, 0 after the default
constructor; and a single `set_bytemap` that returns leaves the size as it
was. -/
theorem size_unchanged_by_calls (v₀ w : ValidityVector) (cs : List Call)
    (h : v₀.apply_calls cs = Outcome.returned w) :
    w.size = v₀.size ∧
    (∀ env garbage n, ctor_size env garbage n = Outcome.returned v₀ → w.size = n) ∧
    (v₀ = ctor_default → w.size = 0) ∧
    (∀ (u u' : ValidityVector) (env : Alloc) (arg : Ptr) (st : Status),
      u.set_bytemap env arg = Outcome.returned (st, u') → u'.size = u.size) := by
  have hsz : w.size = v₀.size := apply_calls_size v₀ w cs h
  refine ⟨hsz, ?_, ?_, ?_⟩
  · intro env garbage n hc
    rw [hsz]
    unfold ctor_size at hc
    split_ifs at hc with hn
    · cases hm : malloc env n with
      | null => rw [hm] at hc; cases hc
      | block b => rw [hm] at hc; cases hc; rfl
      | wild => rw [hm] at hc; cases hc; rfl
    · cases hc; rfl
  · intro hd
    rw [hsz, hd]
    rfl
  · intro u u' env arg st hs
    exact (set_bytemap_returned u u' env arg st hs).2.1

/-- Witness of C15: a vector built with size 2, then a `set_bytemap` with three
bytes, a `get_bytemap` and a second `set_bytemap`. -/
theorem size_unchanged_by_calls_witness :
    (ValidityVector.mk (Ptr.block [9, 9]) 2).size = 2 :=
  ((size_unchanged_by_calls (ValidityVector.mk (Ptr.block [0, 0]) 2)
    (ValidityVector.mk (Ptr.block [9, 9]) 2)
    [Call.set (some fun _ => 0) (Ptr.block [7, 0, 9]), Call.get (Ptr.block [1, 1]),
      Call.set (some fun _ => 0) (Ptr.block [9, 9])] (by decide)).2.1
    (some fun _ => 0) Ptr.null 2 (by decide))

/-- C16 (get_bytemap is read-only on the vector): a `get_bytemap` that returns
leaves the vector, its size and its stored bytes, as it was; with a destination
of at least `size()` bytes it returns Ok and leaves in the destination the first
`size()` bytes of the buffer followed by the old bytes of the destination from
index `size()` on, the length of the destination unchanged; a second call into
the same destination changes nothing, and calls into two destinations deliver
the same first `size()` bytes. -/
theorem get_bytemap_read_only (v : ValidityVector) (dest : Ptr) :
    (∀ st w d, v.get_bytemap dest = Outcome.returned (st, w, d) →
      w = v ∧ w.size = v.size ∧ w.buffer = v.buffer ∧
      v.get_bytemap d = Outcome.returned (Status.Ok, v, d)) ∧
    (∀ dl b : List Nat, dest = Ptr.block dl → v.buffer_ = Ptr.block b → v.size ≤ dl.length →
      v.size ≤ b.length →
      v.get_bytemap dest
        = Outcome.returned (Status.Ok, v, Ptr.block (b.take v.size ++ dl.drop v.size)) ∧
      (b.take v.size ++ dl.drop v.size).length = dl.length ∧
      (∀ i, i < v.size → (b.take v.size ++ dl.drop v.size)[i]? = b[i]?) ∧
      (∀ i, v.size ≤ i → (b.take v.size ++ dl.drop v.size)[i]? = dl[i]?) ∧
      (∀ dl' : List Nat, v.size ≤ dl'.length → ∀ i, i < v.size →
        (b.take v.size ++ dl'.drop v.size)[i]? = (b.take v.size ++ dl.drop v.size)[i]?)) ∧
    (dest ≠ Ptr.null → v.size = 0 →
      v.get_bytemap dest = Outcome.returned (Status.Ok, v, dest)) := by
  refine ⟨?_, ?_, ?_⟩
  · intro st w d h
    obtain ⟨_, h2, hd, hm⟩ := get_bytemap_returned v w dest d st h
    refine ⟨h2, by rw [h2], by rw [h2], ?_⟩
    unfold memcpy at hm
    by_cases h0 : v.buffer_size_ = 0
    · rw [if_pos h0] at hm
      cases hm
      unfold get_bytemap
      rw [if_neg hd, h0, memcpy_zero]
    · rw [if_neg h0] at hm
      rcases dest with _ | dl | _
      · exact absurd rfl hd
      · rcases hb : v.buffer_ with _ | b | _
        · rw [hb] at hm; simp at hm
        · rw [hb] at hm
          simp only at hm
          split_ifs at hm with hle
          cases hm
          unfold get_bytemap memcpy
          rw [hb]
          have hlen : (b.take v.buffer_size_).length = v.buffer_size_ := by
            rw [List.length_take]; omega
          simp [h0, hle.1, hle.2, hlen, List.take_take]
        · rw [hb] at hm; simp at hm
      · simp at hm
  · intro dl b hdest hb hdl hbl
    have hdl' : v.buffer_size_ ≤ dl.length := hdl
    have hbl' : v.buffer_size_ ≤ b.length := hbl
    have hlen : (b.take v.buffer_size_).length = v.buffer_size_ := by
      rw [List.length_take]; omega
    have hlow : ∀ (l : List Nat) (i : Nat), i < v.buffer_size_ →
        (b.take v.buffer_size_ ++ l)[i]? = b[i]? := fun l i hi => by
      rw [List.getElem?_append_left (by rw [hlen]; exact hi), List.getElem?_take_of_lt hi]
    refine ⟨?_, ?_, ?_, ?_, ?_⟩
    · subst hdest
      unfold get_bytemap memcpy
      rw [hb]
      by_cases h0 : v.buffer_size_ = 0
      · simp [h0, size]
      · simp [h0, hdl', hbl', size]
    · simp only [size, List.length_append, hlen, List.length_drop]
      omega
    · intro i hi
      exact hlow _ i hi
    · intro i hi
      have hi' : v.buffer_size_ ≤ i := hi
      simp only [size]
      rw [List.getElem?_append_right (by rw [hlen]; exact hi'), hlen, List.getElem?_drop]
      congr 1
      omega
    · intro dl' _ i hi
      simp only [size]
      rw [hlow _ i hi, hlow _ i hi]
  · intro hd h0
    unfold get_bytemap
    have h0' : v.buffer_size_ = 0 := h0
    rw [if_neg hd, h0', memcpy_zero]

/-- Witness of C16: a vector of size 2 holding 7, 0 and a destination 1, 1, 1:
the destination reads 7, 0, 1 and the vector is as it was. -/
theorem get_bytemap_read_only_witness :
    (ValidityVector.mk (Ptr.block [7, 0]) 2).get_bytemap (Ptr.block [1, 1, 1])
      = Outcome.returned (Status.Ok, ValidityVector.mk (Ptr.block [7, 0]) 2,
          Ptr.block [7, 0, 1]) :=
  ((get_bytemap_read_only (ValidityVector.mk (Ptr.block [7, 0]) 2) (Ptr.block [1, 1, 1])).2.1
    [1, 1, 1] [7, 0] rfl rfl (by decide) (by decide)).1

end ValidityVector

end sm
end tiledb
